import Mathlib

/-!
# A verification development for `hashmap.js`

Shallow embedding of the closure-based hash map of `src/hashmap.js`
(`hashMap()`): the captured variables `size`, `capacity` and `buckets`
become the fields of a record, every method becomes a function on that record.
The hash set of the same file (`createHashSet()`) captures one such map.

* Keys are JavaScript strings, modelled as the list of their UTF-16 code units
  (what `charCodeAt` returns); `===` on two strings is equality of these lists.
* Values are arbitrary JavaScript values; `null` and `undefined` are kept apart
  because `has` tests `!== null`.
* `loadFactor` is the constant `0.75`; `size >= capacity * 0.75` is the integer
  comparison `3 * capacity ≤ 4 * size`.
* `buckets[index]` on an index outside the array yields `undefined` in
  JavaScript and the following `.length` throws; that is the result `none`.
* `set` calls itself (re-insertion loop and retry after a resize); the
  embedding takes the permitted call depth as its `fuel`, and `none` is also
  the result of a call that would need a deeper recursion.
* Numbers are exact: `size`, `capacity` and the hash accumulator are integers
  far below `2 ^ 53` for every table that fits in memory, so the double
  arithmetic of the source is integer arithmetic.
-/

namespace HashMapJS

/-- A string key: the sequence of its UTF-16 code units. -/
abbrev Key := List Nat

/-- JavaScript values as far as the map can tell them apart. -/
inductive Value where
  | null : Value
  | undefined : Value
  | bool (b : Bool) : Value
  | num (n : Int) : Value
  | str (s : List Nat) : Value
  | obj (ref : Nat) : Value
  deriving DecidableEq

/-- One chain element `[key, value]`. -/
abbrev Entry := Key × Value

/-- The variables captured by the closures returned from `hashMap()`. -/
structure MapState where
  size : Int
  capacity : Nat
  buckets : List (List Entry)
  deriving DecidableEq

/-- The state built by `hashMap()`: `size = 0`, `capacity = 16` and sixteen empty chains. -/
def hashMap : MapState :=
  { size := 0, capacity := 16, buckets := List.replicate 16 [] }

/-- Source `hash(key)`: `hashCode = (31 * hashCode + key.charCodeAt(i)) % capacity`, from 0.
The capacity is positive in every state the properties below speak about (with capacity 0 the
source computes `NaN` for a non-empty key, which this definition does not reproduce). -/
def hash (capacity : Nat) (key : Key) : Nat :=
  key.foldl (fun hashCode c => (31 * hashCode + c) % capacity) 0

/-- The scan of `set` over one chain: at the first entry with the key the value is replaced;
`none` when the loop ends without a match. -/
def updateLoop : List Entry → Key → Value → Option (List Entry)
  | [], _, _ => none
  | e :: rest, key, value =>
    if e.1 = key then some ((e.1, value) :: rest)
    else (updateLoop rest key value).map (fun r => e :: r)

/-- The scan of `get` over one chain: the value of the first entry with the key, else `null`. -/
def getLoop : List Entry → Key → Value
  | [], _ => Value.null
  | e :: rest, key => if key = e.1 then e.2 else getLoop rest key

/-- The scan of `remove` over one chain: `splice(i, 1)` at the first entry with the key;
`none` when the loop ends without a match. -/
def removeLoop : List Entry → Key → Option (List Entry)
  | [], _ => none
  | e :: rest, key =>
    if key = e.1 then some rest
    else (removeLoop rest key).map (fun r => e :: r)

/-- The inner loop `for (const inner of element) this.set(inner[0], inner[1])`. -/
def reinsertChain (setFn : MapState → Key → Value → Option MapState) :
    List Entry → MapState → Option MapState
  | [], s => some s
  | inner :: rest, s =>
    match setFn s inner.1 inner.2 with
    | none => none
    | some s' => reinsertChain setFn rest s'

/-- The outer loop `for (const element of oldBuckets)`. -/
def reinsertBuckets (setFn : MapState → Key → Value → Option MapState) :
    List (List Entry) → MapState → Option MapState
  | [], s => some s
  | element :: rest, s =>
    match reinsertChain setFn element s with
    | none => none
    | some s' => reinsertBuckets setFn rest s'

/-- Source `set(key, value)`; `fuel` bounds the depth of the self-calls. -/
def MapState.set : Nat → MapState → Key → Value → Option MapState
  | 0, _, _, _ => none
  | fuel + 1, s, key, value =>
    let index := hash s.capacity key
    match s.buckets[index]? with
    | none => none
    | some bucket =>
      match updateLoop bucket key value with
      | some bucket' => some { s with buckets := s.buckets.set index bucket' }
      | none =>
        if 3 * (s.capacity : Int) ≤ 4 * s.size then
          let oldBuckets := s.buckets
          let s1 : MapState :=
            { size := 0, capacity := s.capacity * 2,
              buckets := List.replicate (s.capacity * 2) [] }
          match reinsertBuckets (fun t k v => MapState.set fuel t k v) oldBuckets s1 with
          | none => none
          | some s2 => MapState.set fuel s2 key value
        else
          some { s with buckets := s.buckets.set index (bucket ++ [(key, value)]),
                        size := s.size + 1 }

/-- Source `get(key)`. -/
def get (s : MapState) (key : Key) : Option Value :=
  match s.buckets[hash s.capacity key]? with
  | none => none
  | some bucket => some (getLoop bucket key)

/-- Source `has(key)`: `this.get(key) !== null`. -/
def has (s : MapState) (key : Key) : Option Bool :=
  (get s key).map (fun v => decide (v ≠ Value.null))

/-- Source `remove(key)`: the returned boolean and the state afterwards. -/
def remove (s : MapState) (key : Key) : Option (Bool × MapState) :=
  let index := hash s.capacity key
  match s.buckets[index]? with
  | none => none
  | some bucket =>
    match removeLoop bucket key with
    | some bucket' =>
      some (true, { s with buckets := s.buckets.set index bucket', size := s.size - 1 })
    | none => some (false, s)

/-- Source `length()`. -/
def length (s : MapState) : Int := s.size

/-- Source `clear()`: fresh empty chains at the current capacity, `size = 0`. -/
def clear (s : MapState) : MapState :=
  { s with buckets := List.replicate s.capacity [], size := 0 }

/-- The traversal shared by `keys`, `values` and `entries`: every bucket in index order,
skipping the push loop when `element.length > 0` fails, every chain element in order. -/
def scan {α : Type} (f : Entry → α) : List (List Entry) → List α
  | [] => []
  | element :: rest =>
    (if element.length > 0 then element.map f else []) ++ scan f rest

/-- Source `keys()`. -/
def keys (s : MapState) : List Key := scan (fun e => e.1) s.buckets

/-- Source `values()`. -/
def values (s : MapState) : List Value := scan (fun e => e.2) s.buckets

/-- Source `entries()`. -/
def entries (s : MapState) : List Entry := scan (fun e => e) s.buckets

/-- The map states a caller can produce: `hashMap()` followed by `set`, `remove`, `clear`. -/
inductive Reachable : MapState → Prop
  | init : Reachable hashMap
  | set {s s' : MapState} (fuel : Nat) (key : Key) (value : Value) :
      Reachable s → MapState.set fuel s key value = some s' → Reachable s'
  | remove {s s' : MapState} (key : Key) (b : Bool) :
      Reachable s → remove s key = some (b, s') → Reachable s'
  | clear {s : MapState} : Reachable s → Reachable (clear s)


/-! ## The hash set: `createHashSet()` -/

/-- The variable `map` captured by the closures returned from `createHashSet()`. -/
structure SetState where
  map : MapState
  deriving DecidableEq

/-- The state built by `createHashSet()`: `const map = hashMap()`. -/
def createHashSet : SetState := { map := hashMap }

/-- Source `add(key)` of the set: `map.set(key, true)`; `fuel` is the depth allowed to `set`. -/
def SetState.add (fuel : Nat) (hs : SetState) (key : Key) : Option SetState :=
  (MapState.set fuel hs.map key (Value.bool true)).map (fun m => { map := m })

/-- Source `has(key)` of the set: `map.has(key)`. -/
def SetState.has (hs : SetState) (key : Key) : Option Bool := HashMapJS.has hs.map key

/-- Source `remove(key)` of the set: `map.remove(key)`. -/
def SetState.remove (hs : SetState) (key : Key) : Option (Bool × SetState) :=
  (HashMapJS.remove hs.map key).map (fun r => (r.1, { map := r.2 }))

/-- Source `length()` of the set: `map.length()`. -/
def SetState.length (hs : SetState) : Int := HashMapJS.length hs.map

/-- Source `clear()` of the set: `map.clear()`. -/
def SetState.clear (hs : SetState) : SetState := { map := HashMapJS.clear hs.map }

/-- Source `keys()` of the set: `map.keys()`. -/
def SetState.keys (hs : SetState) : List Key := HashMapJS.keys hs.map

/-- Source `values()` of the set: `map.keys()`. -/
def SetState.values (hs : SetState) : List Key := HashMapJS.keys hs.map

/-- Source `entries()` of the set: `map.keys().map((k) => [k])`. -/
def SetState.entries (hs : SetState) : List (List Key) :=
  (HashMapJS.keys hs.map).map (fun k => [k])

/-- The set states a caller can produce: `createHashSet()` followed by `add`, `remove`,
`clear`. -/
inductive SetReachable : SetState → Prop
  | init : SetReachable createHashSet
  | add {hs hs' : SetState} (fuel : Nat) (key : Key) :
      SetReachable hs → SetState.add fuel hs key = some hs' → SetReachable hs'
  | remove {hs hs' : SetState} (key : Key) (b : Bool) :
      SetReachable hs → SetState.remove hs key = some (b, hs') → SetReachable hs'
  | clear {hs : SetState} : SetReachable hs → SetReachable (SetState.clear hs)

/-! ## Definitions used to state the properties -/

/-- Following the spec's words ("association-list lookup over the map's contents"): the value
paired with the key in a list of pairs, at its first occurrence; `none` when no pair has it. -/
def assocLookup : List Entry → Key → Option Value
  | [], _ => none
  | e :: rest, key => if e.1 = key then some e.2 else assocLookup rest key

/-- Every entry of bucket `i` of `bs` has the index `o + i` under `h`. -/
def PlacedFrom (h : Key → Nat) (o : Nat) (bs : List (List Entry)) : Prop :=
  ∀ i b, bs[i]? = some b → ∀ e ∈ b, h e.1 = o + i

/-- The chain that `set`, `get` and `remove` scan for a key (empty when out of range). -/
def chainOf (s : MapState) (key : Key) : List Entry :=
  (s.buckets[hash s.capacity key]?).getD []

/-- The value stored for a key, `none` when the chain scanned for it has no such entry. -/
def stored (s : MapState) (key : Key) : Option Value :=
  assocLookup (chainOf s key) key

/-- Total number of entries across all buckets. -/
def entryCount (buckets : List (List Entry)) : Nat := (buckets.map List.length).sum

/-- Structural invariant of the bucket array. -/
structure WF (s : MapState) : Prop where
  cap_pos : 0 < s.capacity
  buckets_length : s.buckets.length = s.capacity
  placement : ∀ i b, s.buckets[i]? = some b → ∀ e ∈ b, hash s.capacity e.1 = i
  chain_nodup : ∀ b ∈ s.buckets, (b.map Prod.fst).Nodup
  size_eq : s.size = (entryCount s.buckets : Int)

/-- The invariant of reachable states: well-formed buckets, capacity `16 * 2 ^ n`, and at most
`0.75 * capacity` entries. -/
structure Inv (s : MapState) : Prop where
  wf : WF s
  cap_shape : ∃ n, s.capacity = 16 * 2 ^ n
  load : 4 * s.size ≤ 3 * (s.capacity : Int)

/-- A caller's sequence `set(k1, v1); set(k2, v2); ...`, each call with the given depth. -/
def setAll (fuel : Nat) (s : MapState) (pairs : List Entry) : Option MapState :=
  reinsertChain (fun t k v => MapState.set fuel t k v) pairs s

/-- Sample input: thirteen pairs with the keys "a".."k", "aa", "ab". -/
def samplePairs : List Entry :=
  [([97], Value.num 1), ([98], Value.null), ([99], Value.undefined), ([100], Value.bool true),
   ([101], Value.str [120]), ([102], Value.obj 0), ([103], Value.num 7), ([104], Value.num 8),
   ([105], Value.num 9), ([106], Value.num 10), ([107], Value.num 11), ([97, 97], Value.num 12),
   ([97, 98], Value.num 13)]

/-- Sample state: a fresh map after `set` on the first twelve sample pairs, so that the next
new key triggers the resize. -/
def sampleFull : MapState := (setAll 2 hashMap (samplePairs.take 12)).getD hashMap

/-- A caller's sequence `add(k1); add(k2); ...`, each call with the given depth. -/
def addAll (fuel : Nat) : SetState → List Key → Option SetState
  | hs, [] => some hs
  | hs, key :: rest =>
    match SetState.add fuel hs key with
    | none => none
    | some hs' => addAll fuel hs' rest

/-- The invariant of reachable set states: the map is a reachable map and every stored value
is the sentinel `true`. -/
structure SetInv (hs : SetState) : Prop where
  map_reachable : Reachable hs.map
  sentinel : ∀ k v, stored hs.map k = some v → v = Value.bool true

/-- Sample set state: `add("x"); add("y")` on a fresh set. -/
def sampleSet : SetState := (addAll 2 createHashSet [[120], [121]]).getD createHashSet

/-! ## chains -/

theorem hash_lt (c : Nat) (hc : 0 < c) (k : Key) : hash c k < c := by
  unfold hash
  induction k using List.reverseRecOn with
  | nil => simpa using hc
  | append_singleton l a _ => simp only [List.foldl_append, List.foldl_cons, List.foldl_nil]; exact Nat.mod_lt _ hc

theorem assocLookup_eq_none {b : List Entry} {k : Key} :
    assocLookup b k = none ↔ k ∉ b.map Prod.fst := by
  induction b with
  | nil => simp [assocLookup]
  | cons e r ih =>
    by_cases h : e.1 = k
    · simp [assocLookup, h]
    · simp only [assocLookup, h, if_false, ih, List.map_cons, List.mem_cons, not_or]
      constructor
      · intro h2; exact ⟨fun h3 => h h3.symm, h2⟩
      · intro h2; exact h2.2

theorem assocLookup_eq_some {b : List Entry} {k : Key} {v : Value}
    (hnd : (b.map Prod.fst).Nodup) : assocLookup b k = some v ↔ (k, v) ∈ b := by
  induction b with
  | nil => simp [assocLookup]
  | cons e r ih =>
    rw [List.map_cons, List.nodup_cons] at hnd
    by_cases h : e.1 = k
    · subst h
      simp only [assocLookup, if_true, List.mem_cons, Option.some.injEq]
      constructor
      · intro h2; left; rw [← h2]
      · rintro (h2 | h2)
        · rw [← h2]
        · exact absurd (List.mem_map_of_mem Prod.fst h2) hnd.1
    · simp only [assocLookup, h, if_false, ih hnd.2, List.mem_cons]
      constructor
      · intro h2; exact Or.inr h2
      · rintro (h2 | h2)
        · exact absurd (by rw [← h2]) h
        · exact h2

theorem assocLookup_append (a b : List Entry) (k : Key) :
    assocLookup (a ++ b) k = (assocLookup a k).orElse (fun _ => assocLookup b k) := by
  induction a with
  | nil => simp [assocLookup]
  | cons e r ih =>
    by_cases h : e.1 = k <;> simp [assocLookup, h, ih]

theorem getLoop_eq (b : List Entry) (k : Key) :
    getLoop b k = (assocLookup b k).getD Value.null := by
  induction b with
  | nil => simp [getLoop, assocLookup]
  | cons e r ih =>
    by_cases h : e.1 = k
    · simp [getLoop, assocLookup, h]
    · have h' : ¬ k = e.1 := fun h2 => h h2.symm
      simp [getLoop, assocLookup, h, h', ih]

theorem updateLoop_eq_none {b : List Entry} {k : Key} {v : Value} :
    updateLoop b k v = none ↔ assocLookup b k = none := by
  induction b with
  | nil => simp [updateLoop, assocLookup]
  | cons e r ih =>
    by_cases h : e.1 = k <;> simp [updateLoop, assocLookup, h, ih]

theorem updateLoop_some {b b' : List Entry} {k : Key} {v : Value}
    (h : updateLoop b k v = some b') :
    b'.map Prod.fst = b.map Prod.fst ∧ b'.length = b.length ∧
      ∀ k', assocLookup b' k' = if k' = k then some v else assocLookup b k' := by
  induction b generalizing b' with
  | nil => simp [updateLoop] at h
  | cons e r ih =>
    by_cases he : e.1 = k
    · simp only [updateLoop, he, if_true, Option.some.injEq] at h
      subst h
      refine ⟨by simp [he], by simp, fun k' => ?_⟩
      by_cases hk : k' = k
      · simp [assocLookup, hk]
      · have : ¬ k = k' := fun h2 => hk h2.symm
        simp [assocLookup, hk, this, he]
    · simp only [updateLoop, he, if_false, Option.map_eq_some'] at h
      obtain ⟨r', hr', rfl⟩ := h
      obtain ⟨h1, h2, h3⟩ := ih hr'
      refine ⟨by simp [h1], by simp [h2], fun k' => ?_⟩
      by_cases hk : k' = k
      · subst hk
        simp [assocLookup, he, h3]
      · by_cases hek : e.1 = k'
        · simp [assocLookup, hek, hk]
        · simp [assocLookup, hek, hk, h3]

theorem removeLoop_eq_none {b : List Entry} {k : Key} :
    removeLoop b k = none ↔ assocLookup b k = none := by
  induction b with
  | nil => simp [removeLoop, assocLookup]
  | cons e r ih =>
    by_cases h : e.1 = k
    · simp [removeLoop, assocLookup, h]
    · have h' : ¬ k = e.1 := fun h2 => h h2.symm
      simp [removeLoop, assocLookup, h, h', ih]

theorem removeLoop_some {b b' : List Entry} {k : Key}
    (h : removeLoop b k = some b') (hnd : (b.map Prod.fst).Nodup) :
    b'.length + 1 = b.length ∧ (b'.map Prod.fst).Nodup ∧ (∀ e ∈ b', e ∈ b) ∧
      ∀ k', assocLookup b' k' = if k' = k then none else assocLookup b k' := by
  induction b generalizing b' with
  | nil => simp [removeLoop] at h
  | cons e r ih =>
    rw [List.map_cons, List.nodup_cons] at hnd
    by_cases he : k = e.1
    · simp only [removeLoop, he, if_true, Option.some.injEq] at h
      subst h
      refine ⟨by simp, hnd.2, fun x hx => List.mem_cons_of_mem _ hx, fun k' => ?_⟩
      by_cases hk : k' = k
      · rw [if_pos hk, assocLookup_eq_none, hk, he]; exact hnd.1
      · have : ¬ e.1 = k' := fun h2 => hk (by rw [he, h2])
        simp [assocLookup, hk, this]
    · simp only [removeLoop, he, if_false, Option.map_eq_some'] at h
      obtain ⟨r', hr', rfl⟩ := h
      obtain ⟨h1, h2, h3, h4⟩ := ih hr' hnd.2
      refine ⟨by simp [← h1], ?_, ?_, fun k' => ?_⟩
      · rw [List.map_cons, List.nodup_cons]
        refine ⟨fun hmem => hnd.1 ?_, h2⟩
        obtain ⟨x, hx, hxe⟩ := List.mem_map.1 hmem
        exact List.mem_map.2 ⟨x, h3 x hx, hxe⟩
      · intro x hx
        rcases List.mem_cons.1 hx with rfl | hx
        · exact List.mem_cons_self _ _
        · exact List.mem_cons_of_mem _ (h3 x hx)
      · by_cases hek : e.1 = k'
        · have : ¬ k' = k := fun h2 => he (by rw [← h2, hek])
          simp [assocLookup, hek, this]
        · simp [assocLookup, hek, h4]

/-! ## bucket arrays -/

theorem scan_eq {α : Type} (f : Entry → α) (bs : List (List Entry)) :
    scan f bs = bs.flatten.map f := by
  induction bs with
  | nil => rfl
  | cons b r ih =>
    simp only [scan, List.flatten_cons, List.map_append, ih]
    cases b <;> simp

theorem entryCount_replicate (n : Nat) : entryCount (List.replicate n []) = 0 := by
  induction n with
  | zero => rfl
  | succ n ih => simp [entryCount, List.replicate_succ]

theorem flatten_replicate_nil (n : Nat) : (List.replicate n ([] : List Entry)).flatten = [] := by
  induction n with
  | zero => rfl
  | succ n ih => simp [List.replicate_succ]

theorem length_flatten_eq (bs : List (List Entry)) : bs.flatten.length = entryCount bs := by
  induction bs with
  | nil => rfl
  | cons b r ih => simp [entryCount, List.flatten_cons, ih] at *

theorem entryCount_set {bs : List (List Entry)} {i : Nat} {b : List Entry} (x : List Entry)
    (h : bs[i]? = some b) : entryCount (bs.set i x) + b.length = entryCount bs + x.length := by
  induction bs generalizing i with
  | nil => simp at h
  | cons c r ih =>
    cases i with
    | zero =>
      simp only [List.getElem?_cons_zero, Option.some.injEq] at h
      subst h
      simp [entryCount]; omega
    | succ j =>
      simp only [List.getElem?_cons_succ] at h
      have := ih h
      simp [entryCount] at *; omega

theorem PlacedFrom.tail {h : Key → Nat} {o : Nat} {b : List Entry} {r : List (List Entry)}
    (hp : PlacedFrom h o (b :: r)) : PlacedFrom h (o + 1) r := by
  intro i c hc e he
  have := hp (i + 1) c (by simpa using hc) e he
  omega

theorem PlacedFrom.head {h : Key → Nat} {o : Nat} {b : List Entry} {r : List (List Entry)}
    (hp : PlacedFrom h o (b :: r)) : ∀ e ∈ b, h e.1 = o := by
  intro e he
  simpa using hp 0 b (by simp) e he

theorem PlacedFrom.le_of_mem {h : Key → Nat} {o : Nat} {bs : List (List Entry)}
    (hp : PlacedFrom h o bs) : ∀ e ∈ bs.flatten, o ≤ h e.1 := by
  intro e he
  obtain ⟨b, hb, heb⟩ := List.mem_flatten.1 he
  obtain ⟨i, hi, hib⟩ := List.getElem_of_mem hb
  have := hp i b (by rw [List.getElem?_eq_getElem hi, hib]) e heb
  omega

theorem PlacedFrom.flatten_nodup {h : Key → Nat} {o : Nat} {bs : List (List Entry)}
    (hp : PlacedFrom h o bs) (hnd : ∀ b ∈ bs, (b.map Prod.fst).Nodup) :
    (bs.flatten.map Prod.fst).Nodup := by
  induction bs generalizing o with
  | nil => simp
  | cons b r ih =>
    rw [List.flatten_cons, List.map_append, List.nodup_append]
    refine ⟨hnd b (List.mem_cons_self _ _), ih hp.tail (fun c hc => hnd c (List.mem_cons_of_mem _ hc)), ?_⟩
    intro k hk1 hk2
    obtain ⟨e1, he1, rfl⟩ := List.mem_map.1 hk1
    obtain ⟨e2, he2, he⟩ := List.mem_map.1 hk2
    have h1 := hp.head e1 he1
    have h2 := hp.tail.le_of_mem e2 he2
    rw [he] at h2
    omega

theorem PlacedFrom.lookup_flatten {h : Key → Nat} {o : Nat} {bs : List (List Entry)}
    (hp : PlacedFrom h o bs) (k : Key) (hk : o ≤ h k) :
    assocLookup bs.flatten k = assocLookup ((bs[h k - o]?).getD []) k := by
  induction bs generalizing o with
  | nil => simp
  | cons b r ih =>
    rw [List.flatten_cons, assocLookup_append]
    by_cases hko : h k = o
    · have hr : assocLookup r.flatten k = none := by
        rw [assocLookup_eq_none]
        intro hmem
        obtain ⟨e, he, hek⟩ := List.mem_map.1 hmem
        have := hp.tail.le_of_mem e he
        rw [hek] at this
        omega
      rw [hr, hko]
      simp
    · have hb : assocLookup b k = none := by
        rw [assocLookup_eq_none]
        intro hmem
        obtain ⟨e, he, hek⟩ := List.mem_map.1 hmem
        have := hp.head e he
        rw [hek] at this
        exact hko this
      have hlt : o + 1 ≤ h k := by omega
      rw [hb, ih hp.tail hlt]
      have : h k - o = (h k - (o + 1)) + 1 := by omega
      rw [this]
      simp

/-! ## well-formed states -/

theorem WF.placedFrom {s : MapState} (hwf : WF s) : PlacedFrom (hash s.capacity) 0 s.buckets := by
  intro i b hb e he
  simpa using hwf.placement i b hb e he

theorem WF.index_lt {s : MapState} (hwf : WF s) (k : Key) :
    hash s.capacity k < s.buckets.length := by
  rw [hwf.buckets_length]; exact hash_lt _ hwf.cap_pos k

theorem WF.bucket_eq {s : MapState} (hwf : WF s) (k : Key) :
    s.buckets[hash s.capacity k]? = some (chainOf s k) := by
  unfold chainOf
  rw [List.getElem?_eq_getElem (hwf.index_lt k)]
  rfl

theorem WF.chainOf_mem {s : MapState} (hwf : WF s) (k : Key) : chainOf s k ∈ s.buckets := by
  have := hwf.bucket_eq k
  rw [List.getElem?_eq_getElem (hwf.index_lt k)] at this
  rw [← Option.some.inj this]
  exact List.getElem_mem _

theorem WF.nodup_chainOf {s : MapState} (hwf : WF s) (k : Key) :
    ((chainOf s k).map Prod.fst).Nodup := hwf.chain_nodup _ (hwf.chainOf_mem k)

theorem WF.lookup_entries {s : MapState} (hwf : WF s) (k : Key) :
    assocLookup (entries s) k = stored s k := by
  unfold entries stored chainOf
  rw [scan_eq, List.map_id'' (fun _ => rfl)]
  simpa using hwf.placedFrom.lookup_flatten k (Nat.zero_le _)

theorem WF.nodup_keys {s : MapState} (hwf : WF s) : (keys s).Nodup := by
  unfold keys
  rw [scan_eq]
  exact hwf.placedFrom.flatten_nodup hwf.chain_nodup

theorem keys_eq_map_entries (s : MapState) : keys s = (entries s).map Prod.fst := by
  unfold keys entries
  rw [scan_eq, scan_eq]; simp

theorem values_eq_map_entries (s : MapState) : values s = (entries s).map Prod.snd := by
  unfold values entries
  rw [scan_eq, scan_eq]; simp

theorem WF.mem_keys_iff {s : MapState} (hwf : WF s) (k : Key) :
    k ∈ keys s ↔ stored s k ≠ none := by
  rw [← hwf.lookup_entries k, Ne, assocLookup_eq_none, keys_eq_map_entries]
  simp

theorem WF.stored_eq_some_iff {s : MapState} (hwf : WF s) (k : Key) (v : Value) :
    stored s k = some v ↔ (k, v) ∈ entries s := by
  rw [← hwf.lookup_entries k]
  refine assocLookup_eq_some ?_
  rw [← keys_eq_map_entries]
  exact hwf.nodup_keys

theorem WF.get_eq {s : MapState} (hwf : WF s) (k : Key) :
    get s k = some ((stored s k).getD Value.null) := by
  unfold get
  rw [hwf.bucket_eq k]
  simp only [getLoop_eq]
  rfl

theorem WF.length_entries {s : MapState} (hwf : WF s) : ((entries s).length : Int) = s.size := by
  unfold entries
  rw [scan_eq, hwf.size_eq, List.length_map, length_flatten_eq]

theorem WF.setBucket {s : MapState} (hwf : WF s) (k : Key) {b' : List Entry}
    (hpl : ∀ e ∈ b', hash s.capacity e.1 = hash s.capacity k)
    (hnd : (b'.map Prod.fst).Nodup) {n : Int}
    (hn : n + (chainOf s k).length = s.size + b'.length) :
    WF { size := n, capacity := s.capacity,
         buckets := s.buckets.set (hash s.capacity k) b' } where
  cap_pos := hwf.cap_pos
  buckets_length := by simpa using hwf.buckets_length
  placement := by
    intro i b hb e he
    simp only [List.getElem?_set] at hb
    split at hb
    · next hi =>
      rw [if_pos (hwf.index_lt k)] at hb
      rw [← Option.some.inj hb] at he
      rw [← hi]; exact hpl e he
    · exact hwf.placement i b hb e he
  chain_nodup := by
    intro b hb
    rcases List.mem_or_eq_of_mem_set hb with h | h
    · exact hwf.chain_nodup b h
    · rw [h]; exact hnd
  size_eq := by
    have h1 := entryCount_set b' (hwf.bucket_eq k)
    have h2 := hwf.size_eq
    show n = ((entryCount (s.buckets.set (hash s.capacity k) b') : Nat) : Int)
    omega

theorem WF.chainOf_setBucket {s : MapState} (hwf : WF s) (k k' : Key) (b' : List Entry)
    (n : Int) :
    chainOf { size := n, capacity := s.capacity,
              buckets := s.buckets.set (hash s.capacity k) b' } k' =
      if hash s.capacity k' = hash s.capacity k then b' else chainOf s k' := by
  unfold chainOf
  simp only [List.getElem?_set]
  by_cases h : hash s.capacity k = hash s.capacity k'
  · rw [if_pos h, if_pos (hwf.index_lt k), if_pos h.symm]; rfl
  · rw [if_neg h, if_neg (fun h2 => h h2.symm)]

theorem WF.stored_setBucket {s : MapState} (hwf : WF s) (k k' : Key) (b' : List Entry)
    (n : Int) :
    stored { size := n, capacity := s.capacity,
             buckets := s.buckets.set (hash s.capacity k) b' } k' =
      if hash s.capacity k' = hash s.capacity k then assocLookup b' k' else stored s k' := by
  unfold stored
  rw [hwf.chainOf_setBucket]
  split <;> rfl

theorem WF.placed_chainOf {s : MapState} (hwf : WF s) (k : Key) :
    ∀ e ∈ chainOf s k, hash s.capacity e.1 = hash s.capacity k :=
  hwf.placement _ _ (hwf.bucket_eq k)

/-- A call of `set` that finds the key, or finds room under the load factor, returns without
recursion; its effect on the stored values is a point update. -/
theorem set_noResize {s : MapState} (hwf : WF s) (f : Nat) (k : Key) (v : Value)
    (h : stored s k ≠ none ∨ 4 * s.size < 3 * (s.capacity : Int)) :
    ∃ s', MapState.set (f + 1) s k v = some s' ∧ WF s' ∧ s'.capacity = s.capacity ∧
      (∀ k', stored s' k' = if k' = k then some v else stored s k') ∧
      s'.size = if stored s k = none then s.size + 1 else s.size := by
  have hb := hwf.bucket_eq k
  cases hu : updateLoop (chainOf s k) k v with
  | some b' =>
    obtain ⟨h1, h2, h3⟩ := updateLoop_some hu
    have hne : stored s k ≠ none := by
      intro hn
      rw [stored, ← updateLoop_eq_none (v := v), hu] at hn
      cases hn
    refine ⟨{ size := s.size, capacity := s.capacity,
              buckets := s.buckets.set (hash s.capacity k) b' }, ?_, ?_, rfl, ?_, ?_⟩
    · simp only [MapState.set, hb, hu]
    · refine hwf.setBucket k ?_ ?_ (by rw [h2])
      · intro e he
        have : e.1 ∈ (chainOf s k).map Prod.fst := by
          rw [← h1]; exact List.mem_map_of_mem Prod.fst he
        obtain ⟨e0, he0, he0e⟩ := List.mem_map.1 this
        rw [← he0e]; exact hwf.placed_chainOf k e0 he0
      · rw [h1]; exact hwf.nodup_chainOf k
    · intro k'
      rw [hwf.stored_setBucket, h3]
      by_cases hk : k' = k
      · simp [hk]
      · rw [if_neg hk]
        split
        · next hh => unfold stored chainOf; rw [hh]
        · rfl
    · show s.size = _
      rw [if_neg hne]
  | none =>
    have hnone : stored s k = none := by
      rw [stored, ← updateLoop_eq_none (v := v)]; exact hu
    have hroom : 4 * s.size < 3 * (s.capacity : Int) := by
      rcases h with h | h
      · exact absurd hnone h
      · exact h
    have hif : ¬ (3 * (s.capacity : Int) ≤ 4 * s.size) := by omega
    refine ⟨{ size := s.size + 1, capacity := s.capacity,
              buckets := s.buckets.set (hash s.capacity k) (chainOf s k ++ [(k, v)]) },
            ?_, ?_, rfl, ?_, ?_⟩
    · simp only [MapState.set, hb, hu, hif, if_false]
    · refine hwf.setBucket k ?_ ?_ (by simp; omega)
      · intro e he
        rcases List.mem_append.1 he with he | he
        · exact hwf.placed_chainOf k e he
        · simp only [List.mem_singleton] at he
          rw [he]
      · rw [List.map_append, List.nodup_append]
        refine ⟨hwf.nodup_chainOf k, by simp, ?_⟩
        intro x hx1 hx2
        simp only [List.map_cons, List.map_nil, List.mem_singleton] at hx2
        rw [hx2] at hx1
        exact (assocLookup_eq_none.1 hnone) hx1
    · intro k'
      rw [hwf.stored_setBucket, assocLookup_append]
      by_cases hk : k' = k
      · subst hk
        have : assocLookup (chainOf s k') k' = none := hnone
        simp [this, assocLookup]
      · rw [if_neg hk]
        have hk' : ¬ k = k' := fun h2 => hk h2.symm
        split
        · next hh =>
          have : chainOf s k = chainOf s k' := by unfold chainOf; rw [hh]
          rw [this]
          show _ = assocLookup (chainOf s k') k'
          cases assocLookup (chainOf s k') k' <;> simp [assocLookup, hk']
        · rfl
    · show s.size + 1 = _
      rw [if_pos hnone]

/-! ## the re-insertion loops -/

theorem reinsertChain_append (g : MapState → Key → Value → Option MapState)
    (a b : List Entry) (s : MapState) :
    reinsertChain g (a ++ b) s = (reinsertChain g a s).bind (reinsertChain g b) := by
  induction a generalizing s with
  | nil => rfl
  | cons e r ih =>
    simp only [List.cons_append, reinsertChain]
    cases g s e.1 e.2 with
    | none => rfl
    | some s' => exact ih s'

theorem reinsertBuckets_eq (g : MapState → Key → Value → Option MapState)
    (bs : List (List Entry)) (s : MapState) :
    reinsertBuckets g bs s = reinsertChain g bs.flatten s := by
  induction bs generalizing s with
  | nil => rfl
  | cons b r ih =>
    simp only [reinsertBuckets, List.flatten_cons, reinsertChain_append]
    cases reinsertChain g b s with
    | none => rfl
    | some s' => exact ih s'

/-- Replaying pairwise different, not yet stored keys into a state with enough room: no call
resizes, every pair is appended. -/
theorem reinsertChain_fresh (f : Nat) (l : List Entry) :
    ∀ t : MapState, WF t → (l.map Prod.fst).Nodup → (∀ e ∈ l, stored t e.1 = none) →
      4 * (t.size + l.length) ≤ 3 * (t.capacity : Int) →
      ∃ t', reinsertChain (fun t k v => MapState.set (f + 1) t k v) l t = some t' ∧ WF t' ∧
        t'.capacity = t.capacity ∧ t'.size = t.size + l.length ∧
        ∀ k, stored t' k = (assocLookup l k).orElse (fun _ => stored t k) := by
  induction l with
  | nil =>
    intro t hwf _ _ _
    exact ⟨t, rfl, hwf, rfl, by simp, fun k => by simp [assocLookup]⟩
  | cons e r ih =>
    intro t hwf hnd hfresh hroom
    rw [List.map_cons, List.nodup_cons] at hnd
    have hlen : ((e :: r).length : Int) = r.length + 1 := by simp
    have he : stored t e.1 = none := hfresh e (List.mem_cons_self _ _)
    obtain ⟨t1, ht1, hwf1, hcap1, hst1, hsz1⟩ :=
      set_noResize hwf f e.1 e.2 (Or.inr (by omega))
    rw [if_pos he] at hsz1
    have hfresh1 : ∀ x ∈ r, stored t1 x.1 = none := by
      intro x hx
      rw [hst1]
      have hne : x.1 ≠ e.1 := fun h2 => hnd.1 (h2 ▸ List.mem_map_of_mem Prod.fst hx)
      rw [if_neg hne]
      exact hfresh x (List.mem_cons_of_mem _ hx)
    obtain ⟨t2, ht2, hwf2, hcap2, hsz2, hst2⟩ :=
      ih t1 hwf1 hnd.2 hfresh1 (by rw [hcap1, hsz1]; omega)
    refine ⟨t2, ?_, hwf2, by rw [hcap2, hcap1], by rw [hsz2, hsz1]; omega, fun k => ?_⟩
    · simp only [reinsertChain, ht1]
      exact ht2
    · rw [hst2, hst1]
      by_cases hk : k = e.1
      · subst hk
        have : assocLookup r e.1 = none := assocLookup_eq_none.2 hnd.1
        simp [assocLookup, this]
      · have hk' : ¬ e.1 = k := fun h2 => hk h2.symm
        simp [assocLookup, hk, hk']

/-! ## recursion depth -/

theorem reinsertChain_mono {g g' : MapState → Key → Value → Option MapState}
    (h : ∀ s k v a, g s k v = some a → g' s k v = some a) :
    ∀ (l : List Entry) (s a : MapState),
      reinsertChain g l s = some a → reinsertChain g' l s = some a := by
  intro l
  induction l with
  | nil => intro s a hs; exact hs
  | cons e r ih =>
    intro s a hs
    simp only [reinsertChain] at hs ⊢
    cases hg : g s e.1 e.2 with
    | none => rw [hg] at hs; cases hs
    | some s1 =>
      rw [hg] at hs
      rw [h _ _ _ _ hg]
      exact ih s1 a hs

theorem reinsertBuckets_mono (g g' : MapState → Key → Value → Option MapState)
    (h : ∀ s k v a, g s k v = some a → g' s k v = some a)
    (bs : List (List Entry)) (s a : MapState)
    (hs : reinsertBuckets g bs s = some a) : reinsertBuckets g' bs s = some a := by
  rw [reinsertBuckets_eq] at hs ⊢
  exact reinsertChain_mono h _ s a hs

/-- A result obtained within some recursion depth is obtained within any larger one. -/
theorem set_fuel_succ : ∀ (f : Nat) (s : MapState) (k : Key) (v : Value) (a : MapState),
    MapState.set f s k v = some a → MapState.set (f + 1) s k v = some a := by
  intro f
  induction f with
  | zero => intro s k v a h; simp [MapState.set] at h
  | succ f ih =>
    intro s k v a h
    rw [MapState.set] at h ⊢
    simp only at h ⊢
    cases hb : s.buckets[hash s.capacity k]? with
    | none => rw [hb] at h; cases h
    | some b =>
      rw [hb] at h
      simp only at h ⊢
      cases hu : updateLoop b k v with
      | some b' => rw [hu] at h; exact h
      | none =>
        rw [hu] at h
        simp only at h ⊢
        by_cases hc : 3 * (s.capacity : Int) ≤ 4 * s.size
        · rw [if_pos hc] at h ⊢
          cases hr : reinsertBuckets (fun t k v => MapState.set f t k v) s.buckets
              { size := 0, capacity := s.capacity * 2,
                buckets := List.replicate (s.capacity * 2) [] } with
          | none => rw [hr] at h; cases h
          | some s2 =>
            rw [hr] at h
            rw [reinsertBuckets_mono (fun t k v => MapState.set f t k v)
              (fun t k v => MapState.set (f + 1) t k v) (fun s k v a => ih s k v a) _ _ _ hr]
            exact ih _ _ _ _ h
        · rw [if_neg hc] at h ⊢
          exact h

theorem set_fuel_add (n f : Nat) (s : MapState) (k : Key) (v : Value) (a : MapState)
    (h : MapState.set f s k v = some a) : MapState.set (f + n) s k v = some a := by
  induction n with
  | zero => exact h
  | succ n ih => exact set_fuel_succ _ _ _ _ _ ih

theorem set_fuel_unique {f g : Nat} {s : MapState} {k : Key} {v : Value} {a b : MapState}
    (ha : MapState.set f s k v = some a) (hb : MapState.set g s k v = some b) : a = b := by
  have h1 := set_fuel_add g f s k v a ha
  have h2 := set_fuel_add f g s k v b hb
  rw [Nat.add_comm] at h2
  rw [h1] at h2
  exact Option.some.inj h2

/-! ## the invariant -/

theorem hashMap_inv : Inv hashMap where
  wf :=
    { cap_pos := by decide
      buckets_length := by decide
      placement := by
        intro i b hb e he
        have : b ∈ List.replicate 16 ([] : List Entry) := List.getElem?_mem hb
        rw [List.eq_of_mem_replicate this] at he
        cases he
      chain_nodup := by
        intro b hb
        rw [List.eq_of_mem_replicate hb]
        exact List.nodup_nil
      size_eq := by decide }
  cap_shape := ⟨0, rfl⟩
  load := by decide

theorem WF.fresh (c : Nat) (hc : 0 < c) :
    WF { size := 0, capacity := c, buckets := List.replicate c [] } where
  cap_pos := hc
  buckets_length := by simp
  placement := by
    intro i b hb e he
    have : b ∈ List.replicate c ([] : List Entry) := List.getElem?_mem hb
    rw [List.eq_of_mem_replicate this] at he
    cases he
  chain_nodup := by
    intro b hb
    rw [List.eq_of_mem_replicate hb]
    exact List.nodup_nil
  size_eq := by simp [entryCount_replicate]

theorem stored_fresh (c : Nat) (n : Int) (k : Key) :
    stored { size := n, capacity := c, buckets := List.replicate c [] } k = none := by
  unfold stored chainOf
  cases h : (List.replicate c ([] : List Entry))[hash c k]? with
  | none => rfl
  | some b =>
    have hb : b = [] := List.eq_of_mem_replicate (List.getElem?_mem h)
    rw [hb]
    rfl

theorem Inv.cap_ge {s : MapState} (hinv : Inv s) : 16 ≤ s.capacity := by
  obtain ⟨n, hn⟩ := hinv.cap_shape
  rw [hn]
  have : 1 ≤ 2 ^ n := Nat.one_le_two_pow
  omega

theorem Inv.four_dvd {s : MapState} (hinv : Inv s) : ∃ m, s.capacity = 4 * m := by
  obtain ⟨n, hn⟩ := hinv.cap_shape
  exact ⟨4 * 2 ^ n, by rw [hn]; ring⟩

/-- What one call of `set` does to a state satisfying the invariant: depth 2 is enough, the
stored values change at the key only, the capacity doubles exactly when a new key meets a
full table. -/
theorem set_spec {s : MapState} (hinv : Inv s) (k : Key) (v : Value) :
    ∃ s', MapState.set 2 s k v = some s' ∧ Inv s' ∧
      (∀ k', stored s' k' = if k' = k then some v else stored s k') ∧
      s'.size = (if stored s k = none then s.size + 1 else s.size) ∧
      s'.capacity =
        (if stored s k = none ∧ 3 * (s.capacity : Int) ≤ 4 * s.size then 2 * s.capacity
         else s.capacity) := by
  have hwf := hinv.wf
  have hge := hinv.cap_ge
  obtain ⟨m, hm⟩ := hinv.four_dvd
  have hload := hinv.load
  by_cases hcase : stored s k ≠ none ∨ 4 * s.size < 3 * (s.capacity : Int)
  · obtain ⟨s', hs', hwf', hcap', hst', hsz'⟩ := set_noResize hwf 1 k v hcase
    have hnot : ¬ (stored s k = none ∧ 3 * (s.capacity : Int) ≤ 4 * s.size) := by
      rintro ⟨h1, h2⟩
      rcases hcase with h | h
      · exact h h1
      · omega
    refine ⟨s', hs', ⟨hwf', ?_, ?_⟩, hst', hsz', by rw [if_neg hnot, hcap']⟩
    · rw [hcap']; exact hinv.cap_shape
    · rw [hcap', hsz']
      split
      · rcases hcase with h | h
        · next h1 => exact absurd h1 h
        · omega
      · exact hload
  · have hnone : stored s k = none := by
      by_contra h; exact hcase (Or.inl h)
    have hfull : 3 * (s.capacity : Int) ≤ 4 * s.size := by
      by_contra h; exact hcase (Or.inr (by omega))
    have hu : updateLoop (chainOf s k) k v = none := by
      rw [updateLoop_eq_none]; exact hnone
    have hlen : ((s.buckets.flatten.length : Nat) : Int) = s.size := by
      rw [length_flatten_eq, hwf.size_eq]
    have hlook : ∀ k', assocLookup s.buckets.flatten k' = stored s k' := by
      intro k'
      have := hwf.lookup_entries k'
      unfold entries at this
      rw [scan_eq, List.map_id'' (fun _ => rfl)] at this
      exact this
    obtain ⟨s2, hs2, hwf2, hcap2, hsz2, hst2⟩ :=
      reinsertChain_fresh 0 s.buckets.flatten
        { size := 0, capacity := s.capacity * 2, buckets := List.replicate (s.capacity * 2) [] }
        (WF.fresh _ (by omega)) (hwf.placedFrom.flatten_nodup hwf.chain_nodup)
        (fun e _ => stored_fresh _ _ _)
        (by show 4 * ((0 : Int) + _) ≤ 3 * (((s.capacity * 2 : Nat)) : Int); push_cast; omega)
    have hsz2' : s2.size = s.size := by rw [hsz2, hlen]; simp
    have hcap2' : s2.capacity = s.capacity * 2 := hcap2
    have hst2' : ∀ k', stored s2 k' = stored s k' := by
      intro k'
      rw [hst2, hlook, stored_fresh]
      cases stored s k' <;> rfl
    obtain ⟨s', hs', hwf', hcap', hst', hsz'⟩ :=
      set_noResize hwf2 0 k v (Or.inr (by rw [hsz2', hcap2']; push_cast; omega))
    rw [hst2' k, if_pos hnone] at hsz'
    refine ⟨s', ?_, ⟨hwf', ?_, ?_⟩, ?_, ?_, ?_⟩
    · rw [MapState.set]
      simp only [hwf.bucket_eq k, hu, hfull, if_true, reinsertBuckets_eq]
      rw [hs2]
      exact hs'
    · obtain ⟨n, hn⟩ := hinv.cap_shape
      exact ⟨n + 1, by rw [hcap', hcap2', hn]; ring⟩
    · rw [hcap', hcap2', hsz', hsz2']; push_cast; omega
    · intro k'
      rw [hst', hst2']
    · rw [hsz', hsz2', if_pos hnone]
    · rw [if_pos ⟨hnone, hfull⟩, hcap', hcap2']; ring

theorem set_inv {s s' : MapState} (hinv : Inv s) {f : Nat} {k : Key} {v : Value}
    (h : MapState.set f s k v = some s') : Inv s' := by
  obtain ⟨t, ht, hinvt, _⟩ := set_spec hinv k v
  rw [set_fuel_unique h ht]
  exact hinvt

/-- What one call of `remove` does to a well-formed state. -/
theorem remove_spec {s : MapState} (hwf : WF s) (k : Key) :
    ∃ s', remove s k = some (decide (stored s k ≠ none), s') ∧ WF s' ∧
      s'.capacity = s.capacity ∧
      (∀ k', stored s' k' = if k' = k then none else stored s k') ∧
      s'.size = (if stored s k = none then s.size else s.size - 1) ∧
      (stored s k = none → s' = s) := by
  have hb := hwf.bucket_eq k
  cases hr : removeLoop (chainOf s k) k with
  | some b' =>
    have hne : stored s k ≠ none := by
      intro hn
      rw [stored, ← removeLoop_eq_none, hr] at hn
      cases hn
    obtain ⟨h1, h2, h3, h4⟩ := removeLoop_some hr (hwf.nodup_chainOf k)
    refine ⟨{ size := s.size - 1, capacity := s.capacity,
              buckets := s.buckets.set (hash s.capacity k) b' }, ?_, ?_, rfl, ?_, ?_, ?_⟩
    · simp only [remove, hb, hr, hne, ne_eq, not_false_eq_true, decide_True]
    · refine hwf.setBucket k (fun e he => hwf.placed_chainOf k e (h3 e he)) h2 ?_
      rw [← h1]; push_cast; omega
    · intro k'
      rw [hwf.stored_setBucket, h4]
      by_cases hk : k' = k
      · simp [hk]
      · rw [if_neg hk]
        split
        · next hh => unfold stored chainOf; rw [hh]
        · rfl
    · show s.size - 1 = _
      rw [if_neg hne]
    · intro hn; exact absurd hn hne
  | none =>
    have hnone : stored s k = none := by
      rw [stored, ← removeLoop_eq_none]; exact hr
    refine ⟨s, ?_, hwf, rfl, ?_, by rw [if_pos hnone], fun _ => rfl⟩
    · simp only [remove, hb, hr, hnone, ne_eq, not_true_eq_false, decide_False]
    · intro k'
      by_cases hk : k' = k
      · rw [if_pos hk, hk]; exact hnone
      · rw [if_neg hk]

theorem remove_inv {s s' : MapState} (hinv : Inv s) {k : Key} {b : Bool}
    (h : remove s k = some (b, s')) : Inv s' := by
  obtain ⟨t, ht, hwft, hcapt, _, hszt, _⟩ := remove_spec hinv.wf k
  rw [ht] at h
  have hts : t = s' := (Prod.mk.inj (Option.some.inj h)).2
  subst hts
  refine ⟨hwft, by rw [hcapt]; exact hinv.cap_shape, ?_⟩
  have := hinv.load
  rw [hcapt, hszt]
  split <;> omega

theorem clear_inv {s : MapState} (hinv : Inv s) : Inv (clear s) where
  wf := WF.fresh s.capacity hinv.wf.cap_pos
  cap_shape := hinv.cap_shape
  load := by
    show 4 * (0 : Int) ≤ 3 * (s.capacity : Int)
    omega

theorem stored_clear (s : MapState) (k : Key) : stored (clear s) k = none :=
  stored_fresh s.capacity 0 k

/-- Every state a caller can reach satisfies the invariant. -/
theorem Reachable.inv {s : MapState} (h : Reachable s) : Inv s := by
  induction h with
  | init => exact hashMap_inv
  | set fuel key value _ hs ih => exact set_inv ih hs
  | remove key b _ hr ih => exact remove_inv ih hr
  | clear _ ih => exact clear_inv ih

/-! ## sequences of `set` calls -/

theorem setAll_append (f : Nat) (s : MapState) (a b : List Entry) :
    setAll f s (a ++ b) = (setAll f s a).bind (fun t => setAll f t b) :=
  reinsertChain_append _ a b s

theorem setAll_singleton (f : Nat) (s : MapState) (e : Entry) :
    setAll f s [e] = MapState.set f s e.1 e.2 := by
  unfold setAll
  simp only [reinsertChain]
  cases MapState.set f s e.1 e.2 <;> rfl

theorem setAll_reachable (f : Nat) (l : List Entry) :
    ∀ s t : MapState, Reachable s → setAll f s l = some t → Reachable t := by
  induction l with
  | nil =>
    intro s t hs h
    have : s = t := Option.some.inj h
    exact this ▸ hs
  | cons e r ih =>
    intro s t hs h
    unfold setAll at h
    simp only [reinsertChain] at h
    cases h1 : MapState.set f s e.1 e.2 with
    | none => rw [h1] at h; cases h
    | some s1 =>
      rw [h1] at h
      exact ih s1 t (Reachable.set f e.1 e.2 hs h1) h

/-- Setting pairwise different new keys while the table has room appends each of them and
leaves the capacity alone. -/
theorem setAll_fresh (l : List Entry) (t : MapState) (hwf : WF t)
    (hnd : (l.map Prod.fst).Nodup) (hfresh : ∀ e ∈ l, stored t e.1 = none)
    (hroom : 4 * (t.size + l.length) ≤ 3 * (t.capacity : Int)) :
    ∃ t', setAll 2 t l = some t' ∧ WF t' ∧ t'.capacity = t.capacity ∧
      t'.size = t.size + l.length ∧
      ∀ k, stored t' k = (assocLookup l k).orElse (fun _ => stored t k) :=
  reinsertChain_fresh 1 l t hwf hnd hfresh hroom

theorem sampleFull_reachable : Reachable sampleFull :=
  setAll_reachable 2 (samplePairs.take 12) hashMap sampleFull Reachable.init rfl

/-! ## The claims -/

/-- C1: in every reachable state `set(k, v)` returns (recursion depth 2 suffices, and the
result does not depend on the depth allowed), and afterwards `get(k)` returns `v`, for every
value `v`, `null` and `undefined` included. -/
theorem C1_get_after_set (s : MapState) (k : Key) (v : Value) (h : Reachable s) :
    ∃ s', MapState.set 2 s k v = some s' ∧ get s' k = some v ∧
      ∀ fuel s'', MapState.set fuel s k v = some s'' → s'' = s' := by
  obtain ⟨s', hs', hinv', hst, _⟩ := set_spec h.inv k v
  refine ⟨s', hs', ?_, fun fuel s'' h2 => set_fuel_unique h2 hs'⟩
  rw [hinv'.wf.get_eq, hst, if_pos rfl]
  rfl

theorem C1_get_after_set_witness :
    ∃ s', MapState.set 2 sampleFull [97, 98] Value.undefined = some s' ∧
      get s' [97, 98] = some Value.undefined ∧
      ∀ fuel s'', MapState.set fuel sampleFull [97, 98] Value.undefined = some s'' → s'' = s' :=
  C1_get_after_set sampleFull [97, 98] Value.undefined sampleFull_reachable

/-- C2, the code at the failing input: after `set("a", null)` on a fresh map the key is in the
map for `keys()`, `length()` and `remove` (`keys()` is `["a"]`, `length()` is 1,
`remove("a")` returns `true`), yet `has("a")` returns `false`, against the comment on `has`
("returns true/false based on whether the key is in the hash map"). -/
theorem C2_has_after_set_null :
    ∃ s', MapState.set 2 hashMap [97] Value.null = some s' ∧ has s' [97] = some false ∧
      keys s' = [[97]] ∧ length s' = 1 ∧ ∃ s'', remove s' [97] = some (true, s'') :=
  ⟨_, rfl, rfl, rfl, rfl, _, rfl⟩

/-- Where the code does what C2 says: in every reachable state, after `set(k, v)` with `v`
other than `null`, `has(k)` returns `true`. -/
theorem C2_has_after_set (s : MapState) (k : Key) (v : Value) (h : Reachable s)
    (hv : v ≠ Value.null) :
    ∃ s', MapState.set 2 s k v = some s' ∧ has s' k = some true := by
  obtain ⟨s', hs', hinv', hst, _⟩ := set_spec h.inv k v
  refine ⟨s', hs', ?_⟩
  unfold has
  rw [hinv'.wf.get_eq, hst, if_pos rfl]
  simp [hv]

theorem C2_has_after_set_witness :
    ∃ s', MapState.set 2 hashMap [97] Value.undefined = some s' ∧ has s' [97] = some true :=
  C2_has_after_set hashMap [97] Value.undefined Reachable.init (by decide)

/-- C3: in every reachable state `set(k, v)` leaves every other key `k'` alone: `get(k')` is
the same before and after, and `k'` is in `keys()` afterwards iff it was before; the call that
doubles the capacity is included. -/
theorem C3_set_frame (s : MapState) (k k' : Key) (v : Value) (h : Reachable s)
    (hne : k' ≠ k) :
    ∃ s', MapState.set 2 s k v = some s' ∧ get s' k' = get s k' ∧
      (k' ∈ keys s' ↔ k' ∈ keys s) := by
  obtain ⟨s', hs', hinv', hst, _⟩ := set_spec h.inv k v
  refine ⟨s', hs', ?_, ?_⟩
  · rw [hinv'.wf.get_eq, h.inv.wf.get_eq, hst, if_neg hne]
  · rw [hinv'.wf.mem_keys_iff, h.inv.wf.mem_keys_iff, hst, if_neg hne]

theorem C3_set_frame_witness :
    ∃ s', MapState.set 2 sampleFull [97, 98] (Value.num 13) = some s' ∧
      get s' [98] = get sampleFull [98] ∧ ([98] ∈ keys s' ↔ [98] ∈ keys sampleFull) :=
  C3_set_frame sampleFull [97, 98] [98] (Value.num 13) sampleFull_reachable (by decide)

/-- C4: in every reachable state, `set(k, v1)` followed by `set(k, v2)` leaves `length()` at
its value after the first call and makes `get(k)` return `v2`. -/
theorem C4_set_twice (s : MapState) (k : Key) (v1 v2 : Value) (h : Reachable s) :
    ∃ s1 s2, MapState.set 2 s k v1 = some s1 ∧ MapState.set 2 s1 k v2 = some s2 ∧
      length s2 = length s1 ∧ get s2 k = some v2 := by
  obtain ⟨s1, hs1, hinv1, hst1, _⟩ := set_spec h.inv k v1
  obtain ⟨s2, hs2, hinv2, hst2, hsz2, _⟩ := set_spec hinv1 k v2
  refine ⟨s1, s2, hs1, hs2, ?_, ?_⟩
  · have : stored s1 k ≠ none := by rw [hst1, if_pos rfl]; exact Option.some_ne_none _
    unfold length
    rw [hsz2, if_neg this]
  · rw [hinv2.wf.get_eq, hst2, if_pos rfl]
    rfl

theorem C4_set_twice_witness :
    ∃ s1 s2, MapState.set 2 sampleFull [97, 98] (Value.num 1) = some s1 ∧
      MapState.set 2 s1 [97, 98] (Value.num 2) = some s2 ∧
      length s2 = length s1 ∧ get s2 [97, 98] = some (Value.num 2) :=
  C4_set_twice sampleFull [97, 98] (Value.num 1) (Value.num 2) sampleFull_reachable

/-- C5: in every reachable state `remove(k)` returns `true` exactly when `k` is in `keys()`;
afterwards `has(k)` is `false` and `get(k)` is `null`; when it returns `false` the state is
the one before the call. -/
theorem C5_remove (s : MapState) (k : Key) (h : Reachable s) :
    ∃ b s', remove s k = some (b, s') ∧ (b = true ↔ k ∈ keys s) ∧
      has s' k = some false ∧ get s' k = some Value.null ∧ (b = false → s' = s) := by
  obtain ⟨s', hs', hwf', _, hst, _, hsame⟩ := remove_spec h.inv.wf k
  have hg : get s' k = some Value.null := by
    rw [hwf'.get_eq, hst, if_pos rfl]; rfl
  refine ⟨_, s', hs', ?_, ?_, hg, ?_⟩
  · rw [h.inv.wf.mem_keys_iff]; simp
  · unfold has; rw [hg]; rfl
  · intro hb
    apply hsame
    simpa using hb

theorem C5_remove_witness :
    ∃ b s', remove sampleFull [98] = some (b, s') ∧ (b = true ↔ [98] ∈ keys sampleFull) ∧
      has s' [98] = some false ∧ get s' [98] = some Value.null ∧ (b = false → s' = sampleFull) :=
  C5_remove sampleFull [98] sampleFull_reachable

/-- C6: from a fresh map, `set` on 13 pairwise different keys: the capacity is 16 after each of
the first 12 calls and 32 after the 13th, `length()` is then 13 and `get` returns the value set
for each of the 13 keys. -/
theorem C6_thirteen_keys (pairs : List Entry) (hlen : pairs.length = 13)
    (hnd : (pairs.map Prod.fst).Nodup) :
    (∀ n, n ≤ 12 → ∃ t, setAll 2 hashMap (pairs.take n) = some t ∧ t.capacity = 16) ∧
    ∃ s13, setAll 2 hashMap pairs = some s13 ∧ s13.capacity = 32 ∧ length s13 = 13 ∧
      ∀ e ∈ pairs, get s13 e.1 = some e.2 := by
  have htake : ∀ n, n ≤ 12 → ∃ t, setAll 2 hashMap (pairs.take n) = some t ∧ WF t ∧
      t.capacity = 16 ∧ t.size = (n : Int) ∧
      ∀ k, stored t k = assocLookup (pairs.take n) k := by
    intro n hn
    have hnd' : ((pairs.take n).map Prod.fst).Nodup :=
      List.Nodup.sublist ((List.take_sublist n pairs).map Prod.fst) hnd
    have hl : (pairs.take n).length = n := by rw [List.length_take]; omega
    obtain ⟨t, h1, h2, h3, h4, h5⟩ := setAll_fresh (pairs.take n) hashMap hashMap_inv.wf hnd'
      (fun e _ => stored_fresh 16 0 e.1)
      (by rw [hl]; show 4 * ((0 : Int) + n) ≤ 3 * ((16 : Nat) : Int); omega)
    refine ⟨t, h1, h2, h3, ?_, fun k => ?_⟩
    · rw [h4, hl]; show (0 : Int) + n = n; omega
    · rw [h5]
      have : stored hashMap k = none := stored_fresh 16 0 k
      rw [this]
      cases assocLookup (pairs.take n) k <;> rfl
  refine ⟨fun n hn => ?_, ?_⟩
  · obtain ⟨t, h1, _, h3, _⟩ := htake n hn
    exact ⟨t, h1, h3⟩
  · obtain ⟨s12, h1, hwf, hcap, hsz, hst⟩ := htake 12 (Nat.le_refl _)
    have hdrop : ∃ e, pairs.drop 12 = [e] := by
      apply List.length_eq_one.1
      rw [List.length_drop, hlen]
    obtain ⟨e13, he13⟩ := hdrop
    have hsplit : pairs = pairs.take 12 ++ [e13] := by
      rw [← he13, List.take_append_drop]
    have hnd2 := hnd
    rw [hsplit, List.map_append, List.nodup_append] at hnd2
    obtain ⟨hndt, _, hdisj⟩ := hnd2
    have hnew : e13.1 ∉ (pairs.take 12).map Prod.fst := fun hmem =>
      hdisj hmem (by simp)
    have hinv12 : Inv s12 :=
      ⟨hwf, ⟨0, by rw [hcap]; norm_num⟩, by rw [hcap, hsz]; norm_num⟩
    have hnone : stored s12 e13.1 = none := by
      rw [hst]; exact assocLookup_eq_none.2 hnew
    obtain ⟨s13, hs13, hinv13, hst13, hsz13, hcap13⟩ := set_spec hinv12 e13.1 e13.2
    have hfull : 3 * (s12.capacity : Int) ≤ 4 * s12.size := by rw [hcap, hsz]; norm_num
    rw [if_pos hnone] at hsz13
    rw [if_pos ⟨hnone, hfull⟩] at hcap13
    refine ⟨s13, ?_, by rw [hcap13, hcap], by unfold length; rw [hsz13, hsz]; norm_num, ?_⟩
    · rw [hsplit, setAll_append, h1]
      show setAll 2 s12 [e13] = some s13
      rw [setAll_singleton]; exact hs13
    · intro e he
      rw [hinv13.wf.get_eq, hst13]
      rw [hsplit] at he
      rcases List.mem_append.1 he with he | he
      · have hne : e.1 ≠ e13.1 := fun h2 => hnew (h2 ▸ List.mem_map_of_mem Prod.fst he)
        rw [if_neg hne, hst, (assocLookup_eq_some hndt).2 he]
        rfl
      · rw [List.mem_singleton] at he
        rw [he, if_pos rfl]
        rfl

theorem C6_thirteen_keys_witness :
    (∀ n, n ≤ 12 → ∃ t, setAll 2 hashMap (samplePairs.take n) = some t ∧ t.capacity = 16) ∧
    ∃ s13, setAll 2 hashMap samplePairs = some s13 ∧ s13.capacity = 32 ∧ length s13 = 13 ∧
      ∀ e ∈ samplePairs, get s13 e.1 = some e.2 :=
  C6_thirteen_keys samplePairs rfl (by decide)

/-- C7: in every reachable state, after `clear()` the length is 0, `keys()` is empty, `has(k)`
is `false` for every key, the capacity is the one before the call, and a following
`set(k, v)` makes `get(k)` return `v` with `length()` equal to 1. -/
theorem C7_clear (s : MapState) (k : Key) (v : Value) (h : Reachable s) :
    length (clear s) = 0 ∧ keys (clear s) = [] ∧ (∀ k', has (clear s) k' = some false) ∧
      (clear s).capacity = s.capacity ∧
      ∃ s', MapState.set 2 (clear s) k v = some s' ∧ get s' k = some v ∧ length s' = 1 := by
  have hinv := clear_inv h.inv
  refine ⟨rfl, ?_, fun k' => ?_, rfl, ?_⟩
  · unfold keys
    rw [scan_eq]
    show ((List.replicate s.capacity ([] : List Entry)).flatten).map _ = []
    rw [flatten_replicate_nil]; rfl
  · unfold has
    rw [hinv.wf.get_eq, stored_clear]
    rfl
  · obtain ⟨s', hs', hinv', hst, hsz, _⟩ := set_spec hinv k v
    refine ⟨s', hs', ?_, ?_⟩
    · rw [hinv'.wf.get_eq, hst, if_pos rfl]; rfl
    · unfold length
      rw [hsz, if_pos (stored_clear s k)]
      show (0 : Int) + 1 = 1
      rfl

theorem C7_clear_witness :
    length (clear sampleFull) = 0 ∧ keys (clear sampleFull) = [] ∧
      (∀ k', has (clear sampleFull) k' = some false) ∧
      (clear sampleFull).capacity = sampleFull.capacity ∧
      ∃ s', MapState.set 2 (clear sampleFull) [97] (Value.num 5) = some s' ∧
        get s' [97] = some (Value.num 5) ∧ length s' = 1 :=
  C7_clear sampleFull [97] (Value.num 5) sampleFull_reachable

/-- C8: in every reachable state `length()` is the number of entries over all buckets,
`keys()`, `values()` and `entries()` have that length, and at every index below it
`entries()` holds the pair of what `keys()` and `values()` hold there. -/
theorem C8_size_and_traversals (s : MapState) (h : Reachable s) :
    length s = (entryCount s.buckets : Int) ∧ ((keys s).length : Int) = length s ∧
      ((values s).length : Int) = length s ∧ ((entries s).length : Int) = length s ∧
      ∀ i : Nat, (i : Int) < length s →
        ∃ k v, (keys s)[i]? = some k ∧ (values s)[i]? = some v ∧
          (entries s)[i]? = some (k, v) := by
  have hwf := h.inv.wf
  have hlen := hwf.length_entries
  refine ⟨hwf.size_eq, ?_, ?_, hlen, fun i hi => ?_⟩
  · rw [keys_eq_map_entries, List.length_map]; exact hlen
  · rw [values_eq_map_entries, List.length_map]; exact hlen
  · have hi' : i < (entries s).length := by
      unfold length at hi; omega
    refine ⟨((entries s)[i]).1, ((entries s)[i]).2, ?_, ?_, ?_⟩
    · rw [keys_eq_map_entries, List.getElem?_map, List.getElem?_eq_getElem hi']; rfl
    · rw [values_eq_map_entries, List.getElem?_map, List.getElem?_eq_getElem hi']; rfl
    · rw [List.getElem?_eq_getElem hi']

theorem C8_size_and_traversals_witness :
    length sampleFull = (entryCount sampleFull.buckets : Int) ∧
      ((keys sampleFull).length : Int) = length sampleFull ∧
      ((values sampleFull).length : Int) = length sampleFull ∧
      ((entries sampleFull).length : Int) = length sampleFull ∧
      ∀ i : Nat, (i : Int) < length sampleFull →
        ∃ k v, (keys sampleFull)[i]? = some k ∧ (values sampleFull)[i]? = some v ∧
          (entries sampleFull)[i]? = some (k, v) :=
  C8_size_and_traversals sampleFull sampleFull_reachable

/-- C9: in every reachable state `keys()` has no duplicates, no chain holds a key twice, and
no key occurs in two different buckets. -/
theorem C9_key_uniqueness (s : MapState) (h : Reachable s) :
    (keys s).Nodup ∧ (∀ b ∈ s.buckets, (b.map Prod.fst).Nodup) ∧
      ∀ (i j : Nat) (bi bj : List Entry) (k : Key), s.buckets[i]? = some bi →
        s.buckets[j]? = some bj → k ∈ bi.map Prod.fst → k ∈ bj.map Prod.fst → i = j := by
  have hwf := h.inv.wf
  refine ⟨hwf.nodup_keys, hwf.chain_nodup, ?_⟩
  intro i j bi bj k hi hj hki hkj
  obtain ⟨e1, he1, hk1⟩ := List.mem_map.1 hki
  obtain ⟨e2, he2, hk2⟩ := List.mem_map.1 hkj
  have h1 := hwf.placement i bi hi e1 he1
  have h2 := hwf.placement j bj hj e2 he2
  rw [hk1] at h1
  rw [hk2] at h2
  rw [← h1, ← h2]

theorem C9_key_uniqueness_witness :
    (keys sampleFull).Nodup ∧ (∀ b ∈ sampleFull.buckets, (b.map Prod.fst).Nodup) ∧
      ∀ (i j : Nat) (bi bj : List Entry) (k : Key), sampleFull.buckets[i]? = some bi →
        sampleFull.buckets[j]? = some bj → k ∈ bi.map Prod.fst → k ∈ bj.map Prod.fst → i = j :=
  C9_key_uniqueness sampleFull sampleFull_reachable

/-- C10: in every reachable state `get(k)` is the association-list lookup of `k` in
`entries()` with `null` for a miss: a stored key gets the value paired with it in
`entries()`, a key outside `keys()` gets `null`; on a fresh map every key gets `null`. -/
theorem C10_get_refines_lookup (s : MapState) (k : Key) (h : Reachable s) :
    get s k = some ((assocLookup (entries s) k).getD Value.null) ∧
      (k ∈ keys s → ∃ v, (k, v) ∈ entries s ∧ get s k = some v) ∧
      (∀ v, (k, v) ∈ entries s → get s k = some v) ∧
      (k ∉ keys s → get s k = some Value.null) ∧
      get hashMap k = some Value.null := by
  have hwf := h.inv.wf
  have hv : ∀ v, (k, v) ∈ entries s → get s k = some v := by
    intro v hmem
    rw [hwf.get_eq, (hwf.stored_eq_some_iff k v).2 hmem]
    rfl
  refine ⟨by rw [hwf.lookup_entries, hwf.get_eq], fun hk => ?_, hv, fun hk => ?_, ?_⟩
  · rw [hwf.mem_keys_iff] at hk
    obtain ⟨v, hv2⟩ := Option.ne_none_iff_exists'.1 hk
    have hmem := (hwf.stored_eq_some_iff k v).1 hv2
    exact ⟨v, hmem, hv v hmem⟩
  · have : stored s k = none := by
      by_contra hne
      exact hk ((hwf.mem_keys_iff k).2 hne)
    rw [hwf.get_eq, this]
    rfl
  · rw [hashMap_inv.wf.get_eq]
    have : stored hashMap k = none := stored_fresh 16 0 k
    rw [this]
    rfl

theorem C10_get_refines_lookup_witness :
    get sampleFull [98] = some ((assocLookup (entries sampleFull) [98]).getD Value.null) ∧
      ([98] ∈ keys sampleFull → ∃ v, ([98], v) ∈ entries sampleFull ∧ get sampleFull [98] = some v) ∧
      (∀ v, ([98], v) ∈ entries sampleFull → get sampleFull [98] = some v) ∧
      ([98] ∉ keys sampleFull → get sampleFull [98] = some Value.null) ∧
      get hashMap [98] = some Value.null :=
  C10_get_refines_lookup sampleFull [98] sampleFull_reachable

/-! ## more on chains and buckets -/

theorem flatten_set_keys {bs : List (List Entry)} {i : Nat} {b b' : List Entry}
    (hb : bs[i]? = some b) (hk : b'.map Prod.fst = b.map Prod.fst) :
    (bs.set i b').flatten.map Prod.fst = bs.flatten.map Prod.fst := by
  induction bs generalizing i with
  | nil => simp at hb
  | cons c r ih =>
    cases i with
    | zero =>
      simp only [List.getElem?_cons_zero, Option.some.injEq] at hb
      subst hb
      simp [hk]
    | succ j =>
      simp only [List.getElem?_cons_succ] at hb
      simp only [List.set_cons_succ, List.flatten_cons, List.map_append, ih hb]

theorem flatten_set_filter {bs : List (List Entry)} {i : Nat} {b : List Entry}
    (p : Entry → Bool) (hb : bs[i]? = some b)
    (hothers : ∀ j c, bs[j]? = some c → j ≠ i → ∀ e ∈ c, p e = true) :
    (bs.set i (b.filter p)).flatten = bs.flatten.filter p := by
  induction bs generalizing i with
  | nil => simp at hb
  | cons c r ih =>
    cases i with
    | zero =>
      simp only [List.getElem?_cons_zero, Option.some.injEq] at hb
      subst hb
      have hr : r.flatten.filter p = r.flatten := by
        rw [List.filter_eq_self]
        intro e he
        obtain ⟨d, hd, hed⟩ := List.mem_flatten.1 he
        obtain ⟨j, hj, hjd⟩ := List.getElem_of_mem hd
        exact hothers (j + 1) d (by simp [List.getElem?_eq_getElem hj, hjd]) (by omega) e hed
      simp only [List.set_cons_zero, List.flatten_cons, List.filter_append, hr]
    | succ j =>
      simp only [List.getElem?_cons_succ] at hb
      have hc : c.filter p = c := by
        rw [List.filter_eq_self]
        exact hothers 0 c (by simp) (by omega)
      have := ih hb (fun j' d hd hne => hothers (j' + 1) d (by simpa using hd) (by omega))
      simp only [List.set_cons_succ, List.flatten_cons, List.filter_append, this, hc]

theorem removeLoop_filter {b b' : List Entry} {k : Key}
    (h : removeLoop b k = some b') (hnd : (b.map Prod.fst).Nodup) :
    b' = b.filter (fun e => decide (e.1 ≠ k)) := by
  induction b generalizing b' with
  | nil => simp [removeLoop] at h
  | cons e r ih =>
    rw [List.map_cons, List.nodup_cons] at hnd
    by_cases he : k = e.1
    · simp only [removeLoop, he, if_true, Option.some.injEq] at h
      subst h
      have hr : r.filter (fun x => decide (x.1 ≠ k)) = r := by
        rw [List.filter_eq_self]
        intro x hx
        have : x.1 ≠ k := fun h2 => hnd.1 (by rw [← he, ← h2]; exact List.mem_map_of_mem Prod.fst hx)
        simpa using this
      rw [List.filter_cons, if_neg (by simp [he]), hr]
    · simp only [removeLoop, he, if_false, Option.map_eq_some'] at h
      obtain ⟨r', hr', rfl⟩ := h
      have he' : e.1 ≠ k := fun h2 => he h2.symm
      rw [List.filter_cons]
      simp [he', ih hr' hnd.2]

/-- Overwriting a stored key replaces a value in place: `keys()` is the same list. -/
theorem set_present {s : MapState} (hwf : WF s) (f : Nat) (k : Key) (v : Value)
    (h : stored s k ≠ none) :
    ∃ s', MapState.set (f + 1) s k v = some s' ∧ keys s' = keys s := by
  have hb := hwf.bucket_eq k
  cases hu : updateLoop (chainOf s k) k v with
  | none =>
    rw [updateLoop_eq_none] at hu
    exact absurd hu h
  | some b' =>
    obtain ⟨h1, _, _⟩ := updateLoop_some hu
    refine ⟨{ size := s.size, capacity := s.capacity,
              buckets := s.buckets.set (hash s.capacity k) b' }, ?_, ?_⟩
    · rw [MapState.set]
      simp only [hb, hu]
    · unfold keys
      rw [scan_eq, scan_eq]
      exact flatten_set_keys hb h1

/-- Removing a stored key deletes its entry from the traversal and keeps the order of the
others. -/
theorem remove_present {s : MapState} (hwf : WF s) (k : Key) (h : stored s k ≠ none) :
    ∃ s', remove s k = some (true, s') ∧
      entries s' = (entries s).filter (fun e => decide (e.1 ≠ k)) := by
  have hb := hwf.bucket_eq k
  cases hr : removeLoop (chainOf s k) k with
  | none =>
    rw [removeLoop_eq_none] at hr
    exact absurd hr h
  | some b' =>
    have hf := removeLoop_filter hr (hwf.nodup_chainOf k)
    refine ⟨{ size := s.size - 1, capacity := s.capacity,
              buckets := s.buckets.set (hash s.capacity k) b' }, ?_, ?_⟩
    · simp only [remove, hb, hr]
    · unfold entries
      rw [scan_eq, scan_eq, List.map_id'' (fun _ => rfl), List.map_id'' (fun _ => rfl), hf]
      refine flatten_set_filter _ hb ?_
      intro j c hc hne e he
      have hj := hwf.placement j c hc e he
      have : e.1 ≠ k := fun h2 => hne (by rw [← hj, h2])
      simpa using this

/-- A call of `set` that may not recurse returns only on the paths that keep the capacity. -/
theorem set_one_capacity {s s' : MapState} {k : Key} {v : Value}
    (h : MapState.set 1 s k v = some s') : s'.capacity = s.capacity := by
  rw [MapState.set] at h
  simp only at h
  cases hb : s.buckets[hash s.capacity k]? with
  | none => rw [hb] at h; cases h
  | some b =>
    rw [hb] at h
    simp only at h
    cases hu : updateLoop b k v with
    | some b' =>
      rw [hu] at h
      rw [← Option.some.inj h]
    | none =>
      rw [hu] at h
      simp only at h
      by_cases hc : 3 * (s.capacity : Int) ≤ 4 * s.size
      · rw [if_pos hc] at h
        cases hr : reinsertBuckets (fun t k v => MapState.set 0 t k v) s.buckets
            { size := 0, capacity := s.capacity * 2,
              buckets := List.replicate (s.capacity * 2) [] } with
        | none => rw [hr] at h; cases h
        | some s2 =>
          rw [hr] at h
          simp only [MapState.set] at h
          cases h
      · rw [if_neg hc] at h
        rw [← Option.some.inj h]

theorem set_fuel_ge {s s' : MapState} {k : Key} {v : Value}
    (h : MapState.set 2 s k v = some s') (fuel : Nat) (hf : 2 ≤ fuel) :
    MapState.set fuel s k v = some s' := by
  have := set_fuel_add (fuel - 2) 2 s k v s' h
  rwa [show 2 + (fuel - 2) = fuel by omega] at this

/-- Every step of `hash` is exact in double arithmetic: for a capacity an array can have and
UTF-16 code units the value before `%` is below `2 ^ 53`. -/
theorem hash_step_exact (capacity : Nat) (hpos : 0 < capacity) (hcap : capacity ≤ 2 ^ 32)
    (key : Key) (c : Nat) (hc : c ≤ 65535) : 31 * hash capacity key + c < 2 ^ 53 := by
  have := hash_lt capacity hpos key
  norm_num at hcap ⊢
  omega

theorem hash_snoc (capacity : Nat) (key : Key) (c : Nat) :
    hash capacity (key ++ [c]) = (31 * hash capacity key + c) % capacity := by
  unfold hash
  rw [List.foldl_append]
  rfl

/-! ## The claims on the map, continued -/

theorem WF.has_eq {s : MapState} (hwf : WF s) (k : Key) :
    has s k = some (decide ((stored s k).getD Value.null ≠ Value.null)) := by
  unfold has
  rw [hwf.get_eq]
  rfl

theorem WF.has_true_iff {s : MapState} (hwf : WF s) (k : Key) :
    has s k = some true ↔ ∃ v, (k, v) ∈ entries s ∧ v ≠ Value.null := by
  rw [hwf.has_eq]
  constructor
  · intro h
    have h2 : (stored s k).getD Value.null ≠ Value.null := by simpa using h
    cases hst : stored s k with
    | none => rw [hst] at h2; exact absurd rfl h2
    | some v =>
      rw [hst] at h2
      exact ⟨v, (hwf.stored_eq_some_iff k v).1 hst, h2⟩
  · rintro ⟨v, hmem, hv⟩
    rw [(hwf.stored_eq_some_iff k v).2 hmem]
    simpa using hv

theorem WF.length_keys {s : MapState} (hwf : WF s) : ((keys s).length : Int) = s.size := by
  rw [keys_eq_map_entries, List.length_map]
  exact hwf.length_entries

/-- C11: in every reachable state `has(k)` is `true` exactly when `k` is stored with a value
other than `null` (and `false` otherwise); after `set(k, null)` the key is in `keys()` and
counted by `length()`, yet `has(k)` is `false`. -/
theorem C11_has_sentinel (s : MapState) (k : Key) (h : Reachable s) :
    (has s k = some true ↔ ∃ v, (k, v) ∈ entries s ∧ v ≠ Value.null) ∧
    (has s k = some true ∨ has s k = some false) ∧
    ∃ s', MapState.set 2 s k Value.null = some s' ∧ k ∈ keys s' ∧
      ((keys s').length : Int) = length s' ∧
      length s' = (if k ∈ keys s then length s else length s + 1) ∧
      has s' k = some false := by
  have hwf := h.inv.wf
  refine ⟨hwf.has_true_iff k, ?_, ?_⟩
  · rw [hwf.has_eq]
    cases decide ((stored s k).getD Value.null ≠ Value.null)
    · exact Or.inr rfl
    · exact Or.inl rfl
  · obtain ⟨s', hs', hinv', hst, hsz, _⟩ := set_spec h.inv k Value.null
    refine ⟨s', hs', ?_, hinv'.wf.length_keys, ?_, ?_⟩
    · rw [hinv'.wf.mem_keys_iff, hst, if_pos rfl]
      exact Option.some_ne_none _
    · unfold length
      rw [hsz]
      by_cases hk : stored s k = none
      · rw [if_pos hk, if_neg (fun hmem => (hwf.mem_keys_iff k).1 hmem hk)]
      · rw [if_neg hk, if_pos ((hwf.mem_keys_iff k).2 hk)]
    · rw [hinv'.wf.has_eq, hst, if_pos rfl]
      rfl

theorem C11_has_sentinel_witness :
    (has sampleFull [99] = some true ↔ ∃ v, ([99], v) ∈ entries sampleFull ∧ v ≠ Value.null) ∧
    (has sampleFull [99] = some true ∨ has sampleFull [99] = some false) ∧
    ∃ s', MapState.set 2 sampleFull [99] Value.null = some s' ∧ [99] ∈ keys s' ∧
      ((keys s').length : Int) = length s' ∧
      length s' = (if [99] ∈ keys sampleFull then length sampleFull else length sampleFull + 1) ∧
      has s' [99] = some false :=
  C11_has_sentinel sampleFull [99] sampleFull_reachable

/-- C12: for every key and every capacity of a reachable state, `hash(key)` is below the
capacity (and at least 0, being a natural number); the empty string hashes to 0. -/
theorem C12_hash_range (s : MapState) (k : Key) (h : Reachable s) :
    0 ≤ hash s.capacity k ∧ hash s.capacity k < s.capacity ∧ hash s.capacity [] = 0 :=
  ⟨Nat.zero_le _, hash_lt _ h.inv.wf.cap_pos k, rfl⟩

theorem C12_hash_range_witness :
    0 ≤ hash sampleFull.capacity [104, 105, 65535] ∧
      hash sampleFull.capacity [104, 105, 65535] < sampleFull.capacity ∧
      hash sampleFull.capacity [] = 0 :=
  C12_hash_range sampleFull [104, 105, 65535] sampleFull_reachable

/-- C15: in every reachable state with capacity `c` and size `n`, `set(k, v)` keeps the
capacity when `k` is stored or `n < 0.75 * c`, and makes it exactly `2 * c` when `k` is new
and `n >= 0.75 * c`; in that case `length()` is then `n + 1`. -/
theorem C15_resize_condition (s : MapState) (k : Key) (v : Value) (h : Reachable s) :
    ∃ s', MapState.set 2 s k v = some s' ∧
      (k ∈ keys s ∨ 4 * length s < 3 * (s.capacity : Int) → s'.capacity = s.capacity) ∧
      (k ∉ keys s → 3 * (s.capacity : Int) ≤ 4 * length s →
        s'.capacity = 2 * s.capacity ∧ length s' = length s + 1) := by
  have hwf := h.inv.wf
  obtain ⟨s', hs', _, _, hsz, hcap⟩ := set_spec h.inv k v
  refine ⟨s', hs', ?_, ?_⟩
  · intro hcase
    rw [hcap, if_neg]
    rintro ⟨hnone, hfull⟩
    rcases hcase with hmem | hlt
    · exact (hwf.mem_keys_iff k).1 hmem hnone
    · unfold length at hlt; omega
  · intro hnot hfull
    have hnone : stored s k = none := by
      by_contra hne
      exact hnot ((hwf.mem_keys_iff k).2 hne)
    unfold length at hfull ⊢
    rw [hcap, if_pos ⟨hnone, hfull⟩, hsz, if_pos hnone]
    exact ⟨rfl, rfl⟩

theorem C15_resize_condition_witness :
    ∃ s', MapState.set 2 sampleFull [97, 98] (Value.num 13) = some s' ∧
      ([97, 98] ∈ keys sampleFull ∨ 4 * length sampleFull < 3 * (sampleFull.capacity : Int) →
        s'.capacity = sampleFull.capacity) ∧
      ([97, 98] ∉ keys sampleFull → 3 * (sampleFull.capacity : Int) ≤ 4 * length sampleFull →
        s'.capacity = 2 * sampleFull.capacity ∧ length s' = length sampleFull + 1) :=
  C15_resize_condition sampleFull [97, 98] (Value.num 13) sampleFull_reachable

/-- C16: in every reachable state, `remove(k)` of a stored key returns `true`, lowers
`length()` by exactly 1, deletes the entry of `k` from `entries()` and `keys()` and keeps the
order of the others, leaves `get(k')` as it was for every other key, and keeps the capacity. -/
theorem C16_remove_frame (s : MapState) (k : Key) (h : Reachable s) (hk : k ∈ keys s) :
    ∃ s', remove s k = some (true, s') ∧ length s' = length s - 1 ∧
      entries s' = (entries s).filter (fun e => decide (e.1 ≠ k)) ∧
      keys s' = (keys s).filter (fun k' => decide (k' ≠ k)) ∧
      (keys s').length + 1 = (keys s).length ∧
      (∀ k', k' ≠ k → get s' k' = get s k') ∧ s'.capacity = s.capacity := by
  have hwf := h.inv.wf
  have hne : stored s k ≠ none := (hwf.mem_keys_iff k).1 hk
  obtain ⟨s', hs', hent⟩ := remove_present hwf k hne
  obtain ⟨t, ht, hwft, hcapt, hstt, hszt, _⟩ := remove_spec hwf k
  rw [hs'] at ht
  have hts : s' = t := (Prod.mk.inj (Option.some.inj ht)).2
  subst hts
  rw [if_neg hne] at hszt
  refine ⟨s', hs', hszt, hent, ?_, ?_, ?_, hcapt⟩
  · rw [keys_eq_map_entries, keys_eq_map_entries, hent, List.filter_map]
    rfl
  · have h1 := hwft.length_keys
    have h2 := hwf.length_keys
    omega
  · intro k' hk'
    rw [hwft.get_eq, hwf.get_eq, hstt, if_neg hk']

theorem C16_remove_frame_witness :
    ∃ s', remove sampleFull [98] = some (true, s') ∧ length s' = length sampleFull - 1 ∧
      entries s' = (entries sampleFull).filter (fun e => decide (e.1 ≠ [98])) ∧
      keys s' = (keys sampleFull).filter (fun k' => decide (k' ≠ [98])) ∧
      (keys s').length + 1 = (keys sampleFull).length ∧
      (∀ k', k' ≠ [98] → get s' k' = get sampleFull k') ∧
      s'.capacity = sampleFull.capacity :=
  C16_remove_frame sampleFull [98] sampleFull_reachable (by decide)

/-- C17: in every reachable state `set` returns: recursion depth 2 is enough (and any larger
depth gives the same state), the calls below the outer one never resize, and the second level
is needed exactly for a new key on a full table. -/
theorem C17_set_terminates (s : MapState) (k : Key) (v : Value) (h : Reachable s) :
    ∃ s', (∀ fuel, 2 ≤ fuel → MapState.set fuel s k v = some s') ∧
      (∀ t k' v' t', MapState.set 1 t k' v' = some t' → t'.capacity = t.capacity) ∧
      (MapState.set 1 s k v = none ↔ k ∉ keys s ∧ 3 * (s.capacity : Int) ≤ 4 * length s) := by
  have hwf := h.inv.wf
  obtain ⟨s', hs', _, _, _, hcap⟩ := set_spec h.inv k v
  refine ⟨s', fun fuel hf => set_fuel_ge hs' fuel hf,
    fun t k' v' t' ht => set_one_capacity ht, ?_⟩
  constructor
  · intro hnone
    by_contra hcase
    have hroom : stored s k ≠ none ∨ 4 * s.size < 3 * (s.capacity : Int) := by
      by_contra hno
      apply hcase
      constructor
      · intro hmem
        exact hno (Or.inl ((hwf.mem_keys_iff k).1 hmem))
      · unfold length
        by_contra hlt
        exact hno (Or.inr (by omega))
    obtain ⟨t, ht, _⟩ := set_noResize hwf 0 k v hroom
    rw [hnone] at ht
    cases ht
  · rintro ⟨hnot, hfull⟩
    cases h1 : MapState.set 1 s k v with
    | none => rfl
    | some t =>
      have hc1 := set_one_capacity h1
      have hst : stored s k = none := by
        by_contra hne
        exact hnot ((hwf.mem_keys_iff k).2 hne)
      rw [set_fuel_unique h1 hs', hcap, if_pos ⟨hst, hfull⟩] at hc1
      have := hwf.cap_pos
      omega

theorem C17_set_terminates_witness :
    ∃ s', (∀ fuel, 2 ≤ fuel → MapState.set fuel sampleFull [97, 98] Value.null = some s') ∧
      (∀ t k' v' t', MapState.set 1 t k' v' = some t' → t'.capacity = t.capacity) ∧
      (MapState.set 1 sampleFull [97, 98] Value.null = none ↔
        [97, 98] ∉ keys sampleFull ∧ 3 * (sampleFull.capacity : Int) ≤ 4 * length sampleFull) :=
  C17_set_terminates sampleFull [97, 98] Value.null sampleFull_reachable

/-- C18: in every reachable state the bucket array has `capacity` slots, every entry of
bucket `i` has a key with `hash(key) = i`, the index computed by `set`, `get` and `remove` is
in range, and a stored pair is in the bucket that `get` scans, where `get` finds its value. -/
theorem C18_bucket_placement (s : MapState) (h : Reachable s) :
    s.buckets.length = s.capacity ∧
      (∀ i b, s.buckets[i]? = some b → ∀ e ∈ b, hash s.capacity e.1 = i) ∧
      (∀ k, hash s.capacity k < s.buckets.length) ∧
      (∀ k v, (k, v) ∈ entries s →
        ∃ b, s.buckets[hash s.capacity k]? = some b ∧ (k, v) ∈ b ∧ get s k = some v) := by
  have hwf := h.inv.wf
  refine ⟨hwf.buckets_length, hwf.placement, hwf.index_lt, fun k v hmem => ?_⟩
  have hst := (hwf.stored_eq_some_iff k v).2 hmem
  refine ⟨chainOf s k, hwf.bucket_eq k, ?_, ?_⟩
  · exact (assocLookup_eq_some (hwf.nodup_chainOf k)).1 hst
  · rw [hwf.get_eq, hst]
    rfl

theorem C18_bucket_placement_witness :
    sampleFull.buckets.length = sampleFull.capacity ∧
      (∀ i b, sampleFull.buckets[i]? = some b → ∀ e ∈ b, hash sampleFull.capacity e.1 = i) ∧
      (∀ k, hash sampleFull.capacity k < sampleFull.buckets.length) ∧
      (∀ k v, (k, v) ∈ entries sampleFull →
        ∃ b, sampleFull.buckets[hash sampleFull.capacity k]? = some b ∧ (k, v) ∈ b ∧
          get sampleFull k = some v) :=
  C18_bucket_placement sampleFull sampleFull_reachable

/-- C19: in every reachable state the capacity is `16 * 2 ^ n` for some `n` and
`4 * size ≤ 3 * capacity`, that is `size ≤ capacity * loadFactor`. -/
theorem C19_load_bound (s : MapState) (h : Reachable s) :
    (∃ n, s.capacity = 16 * 2 ^ n) ∧ 4 * length s ≤ 3 * (s.capacity : Int) :=
  ⟨h.inv.cap_shape, h.inv.load⟩

theorem C19_load_bound_witness :
    (∃ n, sampleFull.capacity = 16 * 2 ^ n) ∧
      4 * length sampleFull ≤ 3 * (sampleFull.capacity : Int) :=
  C19_load_bound sampleFull sampleFull_reachable

/-! ## the hash set -/

theorem createHashSet_inv : SetInv createHashSet where
  map_reachable := Reachable.init
  sentinel := by
    intro k v hst
    have : stored hashMap k = none := stored_fresh 16 0 k
    rw [show createHashSet.map = hashMap from rfl, this] at hst
    cases hst

/-- What one call of `add` does to a set state satisfying the invariant. -/
theorem add_spec {hs : SetState} (hinv : SetInv hs) (k : Key) :
    ∃ hs', SetState.add 2 hs k = some hs' ∧ SetInv hs' ∧
      (∀ k', stored hs'.map k' = if k' = k then some (Value.bool true) else stored hs.map k') ∧
      (k ∈ hs.keys → hs'.keys = hs.keys ∧ hs'.length = hs.length) := by
  have hminv := hinv.map_reachable.inv
  obtain ⟨m, hm, hinvm, hst, hsz, _⟩ := set_spec hminv k (Value.bool true)
  refine ⟨{ map := m }, ?_, ⟨?_, ?_⟩, hst, ?_⟩
  · unfold SetState.add
    rw [hm]
    rfl
  · exact Reachable.set 2 k (Value.bool true) hinv.map_reachable hm
  · intro k' v hv
    rw [hst] at hv
    by_cases hk : k' = k
    · rw [if_pos hk] at hv
      exact (Option.some.inj hv).symm
    · rw [if_neg hk] at hv
      exact hinv.sentinel k' v hv
  · intro hk
    have hne : stored hs.map k ≠ none := (hminv.wf.mem_keys_iff k).1 hk
    obtain ⟨m2, hm2, hkeys⟩ := set_present hminv.wf 1 k (Value.bool true) hne
    have hmm : m2 = m := set_fuel_unique hm2 hm
    subst hmm
    refine ⟨hkeys, ?_⟩
    show m2.size = hs.map.size
    rw [hsz, if_neg hne]

theorem add_inv {hs hs' : SetState} (hinv : SetInv hs) {f : Nat} {k : Key}
    (h : SetState.add f hs k = some hs') : SetInv hs' := by
  obtain ⟨t, ht, hinvt, _⟩ := add_spec hinv k
  unfold SetState.add at h ht
  cases h1 : MapState.set f hs.map k (Value.bool true) with
  | none => rw [h1] at h; cases h
  | some m1 =>
    cases h2 : MapState.set 2 hs.map k (Value.bool true) with
    | none => rw [h2] at ht; cases ht
    | some m2 =>
      rw [h1] at h
      rw [h2] at ht
      have hm : m1 = m2 := set_fuel_unique h1 h2
      have e1 : hs' = { map := m1 } := (Option.some.inj h).symm
      have e2 : t = { map := m2 } := (Option.some.inj ht).symm
      rw [e1, hm, ← e2]
      exact hinvt

/-- What one call of the set's `remove` does to a set state satisfying the invariant. -/
theorem setRemove_spec {hs : SetState} (hinv : SetInv hs) (k : Key) :
    ∃ b hs', SetState.remove hs k = some (b, hs') ∧ SetInv hs' ∧
      (∀ k', stored hs'.map k' = if k' = k then none else stored hs.map k') := by
  have hminv := hinv.map_reachable.inv
  obtain ⟨m, hm, _, _, hst, _, _⟩ := remove_spec hminv.wf k
  refine ⟨decide (stored hs.map k ≠ none), { map := m }, ?_, ⟨?_, ?_⟩, hst⟩
  · unfold SetState.remove
    rw [hm]
    rfl
  · exact Reachable.remove k _ hinv.map_reachable hm
  · intro k' v hv
    rw [hst] at hv
    by_cases hk : k' = k
    · rw [if_pos hk] at hv; cases hv
    · rw [if_neg hk] at hv
      exact hinv.sentinel k' v hv

theorem setRemove_inv {hs hs' : SetState} (hinv : SetInv hs) {k : Key} {b : Bool}
    (h : SetState.remove hs k = some (b, hs')) : SetInv hs' := by
  obtain ⟨b2, t, ht, hinvt, _⟩ := setRemove_spec hinv k
  rw [h] at ht
  have : hs' = t := (Prod.mk.inj (Option.some.inj ht)).2
  rw [this]
  exact hinvt

theorem setClear_inv {hs : SetState} (hinv : SetInv hs) : SetInv (SetState.clear hs) where
  map_reachable := Reachable.clear hinv.map_reachable
  sentinel := by
    intro k v hv
    have : stored (clear hs.map) k = none := stored_clear hs.map k
    rw [show (SetState.clear hs).map = clear hs.map from rfl, this] at hv
    cases hv

/-- Every set state a caller can reach satisfies the invariant. -/
theorem SetReachable.setInv {hs : SetState} (h : SetReachable hs) : SetInv hs := by
  induction h with
  | init => exact createHashSet_inv
  | add fuel key _ ha ih => exact add_inv ih ha
  | remove key b _ hr ih => exact setRemove_inv ih hr
  | clear _ ih => exact setClear_inv ih

theorem SetInv.has_iff {hs : SetState} (hinv : SetInv hs) (k : Key) :
    hs.has k = some (decide (k ∈ hs.keys)) := by
  have hwf := hinv.map_reachable.inv.wf
  unfold SetState.has SetState.keys
  rw [hwf.has_eq]
  cases hst : stored hs.map k with
  | none =>
    have : k ∉ keys hs.map := fun hmem => (hwf.mem_keys_iff k).1 hmem hst
    simp [this]
  | some v =>
    have hmem : k ∈ keys hs.map := (hwf.mem_keys_iff k).2 (by rw [hst]; exact Option.some_ne_none _)
    have hv := hinv.sentinel k v hst
    subst hv
    simp [hmem]

theorem SetInv.mem_keys_add {hs hs' : SetState} (hinv : SetInv hs) (hinv' : SetInv hs')
    {k : Key}
    (hst : ∀ k', stored hs'.map k' = if k' = k then some (Value.bool true) else stored hs.map k')
    (k' : Key) : k' ∈ hs'.keys ↔ k' = k ∨ k' ∈ hs.keys := by
  unfold SetState.keys
  rw [hinv'.map_reachable.inv.wf.mem_keys_iff, hinv.map_reachable.inv.wf.mem_keys_iff, hst]
  by_cases hk : k' = k
  · simp [hk]
  · simp [hk]

/-- A sequence of `add` calls returns, and the keys afterwards are those before and those
added. -/
theorem addAll_spec (ks : List Key) :
    ∀ hs : SetState, SetInv hs →
      ∃ r, addAll 2 hs ks = some r ∧ SetInv r ∧ ∀ k, k ∈ r.keys ↔ k ∈ hs.keys ∨ k ∈ ks := by
  induction ks with
  | nil =>
    intro hs hinv
    exact ⟨hs, rfl, hinv, fun k => by simp⟩
  | cons a rest ih =>
    intro hs hinv
    obtain ⟨hs1, h1, hinv1, hst1, _⟩ := add_spec hinv a
    obtain ⟨r, hr, hinvr, hmem⟩ := ih hs1 hinv1
    refine ⟨r, ?_, hinvr, fun k => ?_⟩
    · simp only [addAll, h1]
      exact hr
    · rw [hmem, hinv.mem_keys_add hinv1 hst1, List.mem_cons]
      tauto

theorem SetInv.length_eq {hs : SetState} (hinv : SetInv hs) :
    hs.length = (hs.keys.length : Int) :=
  (hinv.map_reachable.inv.wf.length_keys).symm

theorem addAll_reachable (f : Nat) (ks : List Key) :
    ∀ hs r : SetState, SetReachable hs → addAll f hs ks = some r → SetReachable r := by
  induction ks with
  | nil =>
    intro hs r h hr
    have : hs = r := Option.some.inj hr
    exact this ▸ h
  | cons a rest ih =>
    intro hs r h hr
    simp only [addAll] at hr
    cases h1 : SetState.add f hs a with
    | none => rw [h1] at hr; cases hr
    | some hs1 =>
      rw [h1] at hr
      exact ih hs1 r (SetReachable.add f a h h1) hr

theorem sampleSet_reachable : SetReachable sampleSet :=
  addAll_reachable 2 [[120], [121]] createHashSet sampleSet SetReachable.init rfl

/-! ## The claims on the set -/

/-- C13: on a fresh set, any sequence of `add` calls returns a state whose `length()` is the
number of distinct keys added and whose `keys()` holds exactly those keys, each once; in every
reachable set state, adding a key that is present changes neither `length()` nor `keys()`;
and `add("x"); add("y"); add("x")` gives length 2 and the keys "x", "y". -/
theorem C13_set_counts_distinct (ks : List Key) (hs : SetState) (k : Key)
    (h : SetReachable hs) (hk : k ∈ hs.keys) :
    (∃ r, addAll 2 createHashSet ks = some r ∧ r.length = (ks.dedup.length : Int) ∧
      r.keys.Nodup ∧ (∀ a, a ∈ r.keys ↔ a ∈ ks) ∧ r.keys.Perm ks.dedup) ∧
    (∃ hs', hs.add 2 k = some hs' ∧ hs'.length = hs.length ∧ hs'.keys = hs.keys) ∧
    (∃ r, addAll 2 createHashSet [[120], [121], [120]] = some r ∧ r.length = 2 ∧
      r.keys.Perm [[120], [121]]) := by
  refine ⟨?_, ?_, ⟨_, rfl, rfl, List.Perm.refl _⟩⟩
  · obtain ⟨r, hr, hinvr, hmem⟩ := addAll_spec ks createHashSet createHashSet_inv
    have hnd : r.keys.Nodup := hinvr.map_reachable.inv.wf.nodup_keys
    have hmem' : ∀ a, a ∈ r.keys ↔ a ∈ ks := by
      intro a
      rw [hmem]
      constructor
      · rintro (h1 | h1)
        · cases h1
        · exact h1
      · exact Or.inr
    have hperm : r.keys.Perm ks.dedup :=
      (List.perm_ext_iff_of_nodup hnd (List.nodup_dedup ks)).2
        (fun a => by rw [hmem', List.mem_dedup])
    refine ⟨r, hr, ?_, hnd, hmem', hperm⟩
    rw [hinvr.length_eq, hperm.length_eq]
  · obtain ⟨hs', h1, _, _, hsame⟩ := add_spec h.setInv k
    obtain ⟨hkeys, hlen⟩ := hsame hk
    exact ⟨hs', h1, hlen, hkeys⟩

theorem C13_set_counts_distinct_witness :
    (∃ r, addAll 2 createHashSet [[120], [121], [120], [122]] = some r ∧
      r.length = (([[120], [121], [120], [122]] : List Key).dedup.length : Int) ∧
      r.keys.Nodup ∧ (∀ a, a ∈ r.keys ↔ a ∈ ([[120], [121], [120], [122]] : List Key)) ∧
      r.keys.Perm ([[120], [121], [120], [122]] : List Key).dedup) ∧
    (∃ hs', sampleSet.add 2 [120] = some hs' ∧ hs'.length = sampleSet.length ∧
      hs'.keys = sampleSet.keys) ∧
    (∃ r, addAll 2 createHashSet [[120], [121], [120]] = some r ∧ r.length = 2 ∧
      r.keys.Perm [[120], [121]]) :=
  C13_set_counts_distinct [[120], [121], [120], [122]] sampleSet [120] sampleSet_reachable
    (by decide)

/-- C14: in every reachable set state `entries()` is the list of the one-element tuples `[k]`
for `k` over `keys()` in the same order, with the length of `keys()`; `values()` is `keys()`;
the sentinel `true`, which is the value of every entry of the underlying map, is in no
tuple (a tuple holds one key). -/
theorem C14_set_entries (hs : SetState) (h : SetReachable hs) :
    hs.entries = hs.keys.map (fun k => [k]) ∧ hs.entries.length = hs.keys.length ∧
      (∀ i : Nat, hs.entries[i]? = (hs.keys[i]?).map (fun k => [k])) ∧
      (∀ t ∈ hs.entries, ∃ k, k ∈ hs.keys ∧ t = [k]) ∧
      hs.values = hs.keys ∧
      (∀ v ∈ values hs.map, v = Value.bool true) := by
  have hinv := h.setInv
  have hwf := hinv.map_reachable.inv.wf
  refine ⟨rfl, ?_, ?_, ?_, rfl, ?_⟩
  · unfold SetState.entries SetState.keys
    rw [List.length_map]
  · intro i
    unfold SetState.entries SetState.keys
    rw [List.getElem?_map]
  · intro t ht
    unfold SetState.entries at ht
    obtain ⟨k, hk, hkt⟩ := List.mem_map.1 ht
    exact ⟨k, hk, hkt.symm⟩
  · intro v hv
    rw [values_eq_map_entries] at hv
    obtain ⟨e, he, hev⟩ := List.mem_map.1 hv
    have hst : stored hs.map e.1 = some e.2 := (hwf.stored_eq_some_iff e.1 e.2).2 he
    rw [← hev]
    exact hinv.sentinel e.1 e.2 hst

theorem C14_set_entries_witness :
    sampleSet.entries = sampleSet.keys.map (fun k => [k]) ∧
      sampleSet.entries.length = sampleSet.keys.length ∧
      (∀ i : Nat, sampleSet.entries[i]? = (sampleSet.keys[i]?).map (fun k => [k])) ∧
      (∀ t ∈ sampleSet.entries, ∃ k, k ∈ sampleSet.keys ∧ t = [k]) ∧
      sampleSet.values = sampleSet.keys ∧
      (∀ v ∈ values sampleSet.map, v = Value.bool true) :=
  C14_set_entries sampleSet sampleSet_reachable

/-- C20: in every reachable set state `has(k)` is `true` exactly when `k` is in `keys()` and
`false` otherwise; after `add(k)` it is `true`, after `remove(k)` it is `false`; every stored
value is `true`, never `null`. -/
theorem C20_set_membership (hs : SetState) (k : Key) (h : SetReachable hs) :
    (hs.has k = some true ↔ k ∈ hs.keys) ∧ (hs.has k = some false ↔ k ∉ hs.keys) ∧
      (∃ hs', hs.add 2 k = some hs' ∧ hs'.has k = some true) ∧
      (∃ b hs', hs.remove k = some (b, hs') ∧ hs'.has k = some false) ∧
      (∀ e ∈ entries hs.map, e.2 = Value.bool true) := by
  have hinv := h.setInv
  have hwf := hinv.map_reachable.inv.wf
  refine ⟨?_, ?_, ?_, ?_, ?_⟩
  · rw [hinv.has_iff]; simp
  · rw [hinv.has_iff]; simp
  · obtain ⟨hs', h1, hinv', hst, _⟩ := add_spec hinv k
    refine ⟨hs', h1, ?_⟩
    rw [hinv'.has_iff]
    have : k ∈ hs'.keys := (hinv.mem_keys_add hinv' hst k).2 (Or.inl rfl)
    simp [this]
  · obtain ⟨b, hs', h1, hinv', hst⟩ := setRemove_spec hinv k
    refine ⟨b, hs', h1, ?_⟩
    rw [hinv'.has_iff]
    have : k ∉ hs'.keys := by
      unfold SetState.keys
      rw [hinv'.map_reachable.inv.wf.mem_keys_iff, hst, if_pos rfl]
      exact fun hne => hne rfl
    simp [this]
  · intro e he
    exact hinv.sentinel e.1 e.2 ((hwf.stored_eq_some_iff e.1 e.2).2 he)

theorem C20_set_membership_witness :
    (sampleSet.has [120] = some true ↔ [120] ∈ sampleSet.keys) ∧
      (sampleSet.has [120] = some false ↔ [120] ∉ sampleSet.keys) ∧
      (∃ hs', sampleSet.add 2 [120] = some hs' ∧ hs'.has [120] = some true) ∧
      (∃ b hs', sampleSet.remove [120] = some (b, hs') ∧ hs'.has [120] = some false) ∧
      (∀ e ∈ entries sampleSet.map, e.2 = Value.bool true) :=
  C20_set_membership sampleSet [120] sampleSet_reachable

end HashMapJS
